import Mathlib

/-!
# Verification of the wordle-solver candidate-filtering and guess-selection engine

A shallow embedding of the core of `guesser.py` (the only algorithmic file of the
repository) together with proofs about it.

Modelling conventions:
* a Python string (a word) is a `List Char`;
* a Python dict is an association list `List (key × value)` whose update
  semantics (`aset`) replaces an existing key in place and appends a new key at
  the end, exactly like insertion-ordered Python dicts;
* the nested-dict trie node `{char: child, ..., "eow": True}` is the inductive
  `TrieNode` carrying the end-of-word flag and the ordered child list;
* a `collections.Counter` is an association list `List (key × Nat)` whose keys
  are listed in first-occurrence order (`counterOf`);
* recursive traversals of the trie are mutual structural recursions over the
  nested inductive (node / child-list), so terms evaluate inside the kernel;
  the heap model used for the frame property is fuel-indexed instead, the fuel
  bounded by the store size;
* floats are idealised as real numbers (`Real.logb 2` for `np.log2`) and the
  `float("-inf")` sentinel of the entropy maximiser as `⊥ : EReal`;
* random draws (`random()` shuffling, `np.random.choice`) are threaded through
  an oracle of unconstrained functions and, for the anti-crash loop, an
  explicit stream of draws; `none` models a crash or non-termination.
-/

set_option maxHeartbeats 1000000

/-- Python dict lookup on an association list: first entry with the given key. -/
def alookup {α β : Type} [DecidableEq α] : List (α × β) → α → Option β
  | [], _ => none
  | p :: rest, a => if p.1 = a then some p.2 else alookup rest a

/-- Python dict write `d[a] = b` on an association list: replace the first
entry with key `a` in place, or append a new entry at the end (insertion order
of a Python dict). -/
def aset {α β : Type} [DecidableEq α] : List (α × β) → α → β → List (α × β)
  | [], a, b => [(a, b)]
  | p :: rest, a, b => if p.1 = a then (a, b) :: rest else p :: aset rest a b

/-- Python `str.count`: number of occurrences of a character in a word. -/
def countc (c : Char) : List Char → Nat
  | [] => 0
  | d :: rest => (if d = c then 1 else 0) + countc c rest

/-- `collections.Counter(xs)`: association list of counts, keys in
first-occurrence order. -/
def counterOf {α : Type} [DecidableEq α] (l : List α) : List (α × Nat) :=
  l.foldl (fun acc x =>
    match alookup acc x with
    | some n => aset acc x (n + 1)
    | none => acc ++ [(x, 1)]) []

/-- A node of the trie of `guesser.py`: the nested dict `{char: child_dict, ...}`
optionally carrying the key `"eow"`.  The boolean is the presence of `"eow"`;
the list is the remaining (insertion-ordered) char keys. -/
inductive TrieNode : Type where
  | mk : Bool → List (Char × TrieNode) → TrieNode

/-- Presence of the `"eow"` key. -/
def TrieNode.eow : TrieNode → Bool
  | .mk e _ => e

/-- The char-keyed children, in insertion order. -/
def TrieNode.children : TrieNode → List (Char × TrieNode)
  | .mk _ ch => ch

/-- Membership of a word in the trie structure: follow the child keyed by each
character and test the `"eow"` flag at the end. -/
def memNode : List Char → TrieNode → Bool
  | [], n => n.eow
  | c :: cs, n =>
    match alookup n.children c with
    | some sub => memNode cs sub
    | none => false

/-- The recursive step of `Trie.insert`: walk down `word`, creating missing
children (appended at the end of the dict, like Python), and set `"eow"` at the
last node. -/
def insertNode : List Char → TrieNode → TrieNode
  | [], n => .mk true n.children
  | c :: cs, n =>
    let sub := (alookup n.children c).getD (.mk false [])
    .mk n.eow (aset n.children c (insertNode cs sub))

/-- The `Trie` class: the root nested dict plus the `list` attribute, to which
`insert` appends every inserted word (duplicates included). -/
structure Trie : Type where
  root : TrieNode
  list : List (List Char)

/-- `Trie.insert`. -/
def Trie.insert (t : Trie) (w : List Char) : Trie :=
  ⟨insertNode w t.root, t.list ++ [w]⟩

/-- The empty `Trie()` object. -/
def Trie.empty : Trie := ⟨.mk false [], []⟩

/-- Building a trie by inserting a list of words in order (the loop in
`Guesser.__init__`). -/
def Trie.ofList (ws : List (List Char)) : Trie :=
  ws.foldl Trie.insert Trie.empty

/-- `get_matches(source, target)`: base-3 positional feedback code.  For each
position `i` of `target`: digit 2 if the characters agree, else digit 1 if
`source[i]` occurs anywhere in `target`, else digit 0; the digits are summed
as `digit_i * 3^i` by a running accumulator. -/
def get_matches (source target : List Char) : Nat :=
  (List.range target.length).foldl
    (fun score i =>
      if source.getD i ' ' = target.getD i ' ' then score + 2 * 3 ^ i
      else if source.getD i ' ' ∈ target then score + 3 ^ i
      else score) 0

/-- The per-position digit of the feedback code, as the specification states
it: 2 for an exact positional match, 1 for a letter present elsewhere in the
target, 0 for an absent letter. -/
def matchDigit (source target : List Char) (i : Nat) : Nat :=
  if source.getD i ' ' = target.getD i ' ' then 2
  else if source.getD i ' ' ∈ target then 1
  else 0

/-- The argument bundle of `Trie.filter_words(gray, gray_pos, yellow, green_pos,
guess)`: gray letters (a set), gray/green positional letters (position-keyed
dicts), yellow minimum counts (a Counter), and the guess to exclude. -/
structure FilterArgs : Type where
  gray : List Char
  gray_pos : List (Nat × Char)
  yellow : List (Char × Nat)
  green_pos : List (Nat × Char)
  guess : List Char

/-- `yellow.get(char, 0)`. -/
def yget (y : List (Char × Nat)) (c : Char) : Nat := (alookup y c).getD 0

/-- The yellow-count update of the dfs: when the traversed character has a
positive remaining count, copy the dict with that count decremented. -/
def ydec (y : List (Char × Nat)) (c : Char) : List (Char × Nat) :=
  if 0 < yget y c then y.map (fun p => if p.1 = c then (p.1, p.2 - 1) else p) else y

/-- Repeated `ydec` along the characters of a word, left to right. -/
def yellowAfter (y : List (Char × Nat)) (s : List Char) : List (Char × Nat) :=
  s.foldl ydec y

/-- The yellow check performed when the dfs reaches an `"eow"` node:
no remaining positive count may exceed the number of occurrences of its letter
in the completed word. -/
def ycheckFinal (y : List (Char × Nat)) (w : List Char) : Bool :=
  y.all fun p => !(decide (0 < p.2) && decide (countc p.1 w < p.2))

/-- The green/gray positional check performed at the start of every dfs call on
the last character of the current partial word (no check for the empty word:
in Python the position `-1` is never a dict key). -/
def posCheck (a : FilterArgs) (w : List Char) : Bool :=
  if w.length = 0 then true
  else
    (match alookup a.green_pos (w.length - 1) with
     | some g => decide (w.getD (w.length - 1) ' ' = g)
     | none => true) &&
    (match alookup a.gray_pos (w.length - 1) with
     | some g => decide (w.getD (w.length - 1) ' ' ≠ g)
     | none => true)

/-- The child-skipping test of the dfs: a gray letter whose remaining yellow
count is zero (or absent) and which is not a green value is pruned. -/
def skipChar (a : FilterArgs) (y : List (Char × Nat)) (c : Char) : Bool :=
  decide (c ∈ a.gray) && decide (yget y c = 0) && !decide (c ∈ a.green_pos.map Prod.snd)

mutual

/-- The recursive `dfs` of `Trie.filter_words`.  Returns the Python triple:
the boolean result (`True` when the subtree contributed at least one word),
the freshly built `new_node`, and the words appended to `new_trie.list` during
this subtree, in dfs order. -/
def dfs (a : FilterArgs) : TrieNode → List Char → List (Char × Nat) →
    Bool × TrieNode × List (List Char)
  | .mk e ch, w, y =>
    if posCheck a w then
      if e then
        if decide (w ≠ a.guess) && ycheckFinal y w then (true, .mk true [], [w])
        else (false, .mk false [], [])
      else
        let r := dfsCh a ch w y
        (r.1, .mk false r.2.1, r.2.2)
    else (false, .mk false [], [])

/-- The children loop of the dfs: iterate the (insertion-ordered) child dict,
skipping pruned gray letters, recursing with the word extended and the yellow
count of the traversed letter decremented, and linking the child node into the
new trie exactly when the recursive call succeeded. -/
def dfsCh (a : FilterArgs) : List (Char × TrieNode) → List Char → List (Char × Nat) →
    Bool × List (Char × TrieNode) × List (List Char)
  | [], _, _ => (false, [], [])
  | (c, sub) :: rest, w, y =>
    if skipChar a y c then dfsCh a rest w y
    else
      let rc := dfs a sub (w ++ [c]) (ydec y c)
      let rr := dfsCh a rest w y
      (rc.1 || rr.1, (if rc.1 then [(c, rc.2.1)] else []) ++ rr.2.1, rc.2.2 ++ rr.2.2)

end

/-- `Trie.filter_words(gray, gray_pos, yellow, green_pos, guess)`: run the dfs
from the root on the empty word with the given yellow counts; the new trie is
the built root together with the collected word list. -/
def Trie.filter_words (t : Trie) (a : FilterArgs) : Trie :=
  let r := dfs a t.root [] a.yellow
  ⟨r.2.1, r.2.2⟩

/-- Path acceptance: the per-word condition the dfs enforces along the path
spelled by `s` starting at node `n` with partial word `w` and yellow counts
`y`.  This is the specification the dfs is proved to implement. -/
def acceptB (a : FilterArgs) : List Char → TrieNode → List Char → List (Char × Nat) → Bool
  | [], n, w, y =>
    posCheck a w && (if n.eow then decide (w ≠ a.guess) && ycheckFinal y w else false)
  | c :: s2, n, w, y =>
    posCheck a w &&
    (if n.eow then false
     else
       !(skipChar a y c) &&
       (match alookup n.children c with
        | none => false
        | some sub => acceptB a s2 sub (w ++ [c]) (ydec y c)))

mutual

/-- Well-formedness of a trie node: every child dict has pairwise-distinct
keys, as is automatic for a Python dict. -/
def nodeWF : TrieNode → Bool
  | .mk _ ch => decide ((ch.map Prod.fst).Nodup) && childrenWF ch

/-- Well-formedness of every node of a child list. -/
def childrenWF : List (Char × TrieNode) → Bool
  | [] => true
  | (_, sub) :: rest => nodeWF sub && childrenWF rest

end

mutual

/-- Enumeration of the words stored in a trie node: root-to-`"eow"` paths in
child order. -/
def TrieNode.wordList : TrieNode → List (List Char)
  | .mk e ch => (if e then [[]] else []) ++ wordListCh ch

/-- The words stored below a child list, each prefixed with its child key. -/
def wordListCh : List (Char × TrieNode) → List (List Char)
  | [] => []
  | (c, sub) :: rest => (TrieNode.wordList sub).map (c :: ·) ++ wordListCh rest

end

/-- The word set claimed for `filter_words` by the specification, verbatim:
green positions match, gray positions differ, every positive yellow count is
met by at least that many occurrences, letters that are gray but neither
yellow-positive nor green are absent, and the guess is excluded. -/
def filterSpecClaim (a : FilterArgs) (t : Trie) (u : List Char) : Bool :=
  memNode u t.root &&
  decide (∀ p ∈ a.green_pos, p.1 < u.length → u.getD p.1 ' ' = p.2) &&
  decide (∀ p ∈ a.gray_pos, p.1 < u.length → u.getD p.1 ' ' ≠ p.2) &&
  decide (∀ p ∈ a.yellow, 0 < p.2 → p.2 ≤ countc p.1 u) &&
  decide (∀ c ∈ a.gray, yget a.yellow c = 0 → c ∉ a.green_pos.map Prod.snd → countc c u = 0) &&
  decide (u ≠ a.guess)

/-- The word set `filter_words` actually computes: the characterization the
code satisfies.  Differences from `filterSpecClaim`: a positive yellow count
`k` only requires `2 * count ≥ k` occurrences (the dfs decrements the count
while walking the word and then compares against the decremented value), and a
gray non-green letter is not excluded outright but capped at its yellow count;
in addition a word with a proper prefix that is itself a stored word is dropped
(the dfs stops at the first `"eow"` node of a path). -/
def filterCond (a : FilterArgs) (t : Trie) (u : List Char) : Prop :=
  memNode u t.root = true ∧
  (∀ p : List Char, p <+: u → p ≠ u → memNode p t.root = false) ∧
  (∀ i, i < u.length → ∀ g, alookup a.green_pos i = some g → u.getD i ' ' = g) ∧
  (∀ i, i < u.length → ∀ g, alookup a.gray_pos i = some g → u.getD i ' ' ≠ g) ∧
  (∀ p ∈ a.yellow, p.2 ≤ 2 * countc p.1 u) ∧
  (∀ c, c ∈ a.gray → c ∉ a.green_pos.map Prod.snd → countc c u ≤ yget a.yellow c) ∧
  u ≠ a.guess


/-! ### Heap model of the trie, for the frame property of `filter_words`

Python objects live on a heap and the dfs of `filter_words` mutates dicts in
place.  To state that the SOURCE trie is never mutated, the nested dicts are
modelled as an address-indexed store: a node is an end-of-word flag plus a
dict of child addresses; the store is a list indexed by address, allocation
appends at the end, and `List.set` is an in-place write. -/

/-- A heap trie node: the `"eow"` flag and the char-keyed child addresses. -/
structure NodeH : Type where
  eow : Bool
  children : List (Char × Nat)
deriving DecidableEq

/-- A freshly allocated empty dict `{}`. -/
def emptyNodeH : NodeH := ⟨false, []⟩

/-- The dfs of `filter_words` over the heap: `cur` is the address of the
source node being read, `newAddr` the address of the `new_node` being built.
Children of the new trie are freshly allocated (appended to the store) before
each recursive call and linked into `newAddr` only when the call succeeds,
exactly as in the Python code.  The fuel bounds the recursion depth (the
Python recursion descends through the nested dict). -/
def dfsH (a : FilterArgs) : Nat → Nat → List Char → List (Char × Nat) → Nat →
    List NodeH → Bool × List NodeH × List (List Char)
  | 0, _, _, _, _, σ => (false, σ, [])
  | fuel + 1, cur, w, y, newAddr, σ =>
    let node := σ.getD cur emptyNodeH
    if posCheck a w then
      if node.eow then
        if decide (w ≠ a.guess) && ycheckFinal y w then
          (true, σ.set newAddr { σ.getD newAddr emptyNodeH with eow := true }, [w])
        else (false, σ, [])
      else
        node.children.foldl
          (fun (st : Bool × List NodeH × List (List Char)) p =>
            if skipChar a y p.1 then st
            else
              let childAddr := st.2.1.length
              let r := dfsH a fuel p.2 (w ++ [p.1]) (ydec y p.1) childAddr
                (st.2.1 ++ [emptyNodeH])
              if r.1 then
                let parent := r.2.1.getD newAddr emptyNodeH
                (true,
                  r.2.1.set newAddr
                    { parent with children := parent.children ++ [(p.1, childAddr)] },
                  st.2.2 ++ r.2.2)
              else (st.1, r.2.1, st.2.2 ++ r.2.2))
          (false, σ, [])
    else (false, σ, [])

/-- `filter_words` over the heap: allocate the new trie's root (an empty
dict), run the dfs from the source root, return the new root address, the
final store, and the collected word list. -/
def filter_wordsH (a : FilterArgs) (fuel rootAddr : Nat) (σ : List NodeH) :
    Nat × List NodeH × List (List Char) :=
  let newRoot := σ.length
  let r := dfsH a fuel rootAddr [] a.yellow newRoot (σ ++ [emptyNodeH])
  (newRoot, r.2.1, r.2.2)

/-- The words stored under an address in the heap (with fuel). -/
def wordsH : Nat → List NodeH → Nat → List (List Char)
  | 0, _, _ => []
  | fuel + 1, σ, addr =>
    let node := σ.getD addr emptyNodeH
    (if node.eow then [[]] else []) ++
      node.children.flatMap fun p => (wordsH fuel σ p.2).map (p.1 :: ·)

/-- All addresses reachable from `addr` within `fuel` steps lie below `B`:
the source trie is fully contained in the pre-existing part of the store. -/
def closedBelow (B : Nat) : Nat → List NodeH → Nat → Bool
  | 0, _, _ => false
  | fuel + 1, σ, addr =>
    decide (addr < B) &&
      (σ.getD addr emptyNodeH).children.all fun p => closedBelow B fuel σ p.2

/-! ### The entropy scorer `get_max_entropy_word` and its pattern cache

Floating-point values are idealized as real numbers (`np.log2` becomes
`Real.logb 2`); the initial `float("-inf")` accumulator value is the bottom
element of `EReal`.  The `log2_cache` of the Python code memomizes calls to
the pure function `np.log2` and is therefore value-transparent; it is not
modelled. -/

/-- `self._pattern_cache`: source word to (target word to feedback code). -/
abbrev Cache := List (List Char × List (List Char × Nat))

/-- Every entry of an inner cache dict for source `w1` stores the true
feedback code. -/
def cacheInnerOK (w1 : List Char) (inner : List (List Char × Nat)) : Bool :=
  inner.all fun p => decide (p.2 = get_matches w1 p.1)

/-- The pattern-cache invariant: every stored entry equals
`get_matches(w1, w2)`. -/
def cacheOK (c : Cache) : Bool :=
  c.all fun q => cacheInnerOK q.1 q.2

/-- The inner loop of `get_max_entropy_word` for one source word: walk the
targets, filling the inner cache dict on a miss, and collect the sequence of
codes whose multiset is the pattern distribution. -/
def collectCodes (w1 : List Char) (targets : List (List Char))
    (inner0 : List (List Char × Nat)) : List Nat × List (List Char × Nat) :=
  targets.foldl
    (fun (acc : List Nat × List (List Char × Nat)) w2 =>
      match alookup acc.2 w2 with
      | some v => (acc.1 ++ [v], acc.2)
      | none => (acc.1 ++ [get_matches w1 w2], acc.2 ++ [(w2, get_matches w1 w2)]))
    ([], inner0)

/-- Shannon entropy of the code distribution: for each distinct code its
probability is count / n and the entropy is the negated sum of p * log2 p,
exactly the accumulation loop of the Python code. -/
noncomputable def entropyOfCodes (codes : List Nat) (n : Nat) : ℝ :=
  -(((codes.dedup).map fun v =>
      ((codes.count v : ℝ) / n) * Real.logb 2 ((codes.count v : ℝ) / n)).sum)

/-- The entropy a source word induces over the targets, written directly in
terms of `get_matches` (what the cache-mediated computation evaluates to when
the cache is truthful). -/
noncomputable def entropyPure (targets : List (List Char)) (w : List Char) : ℝ :=
  entropyOfCodes (targets.map (get_matches w)) targets.length

/-- One iteration of the source loop of `get_max_entropy_word`: read or
create the inner cache dict of `w1`, collect the pattern distribution over
the targets, and return the entropy together with the updated cache. -/
noncomputable def process_source (cache : Cache) (targets : List (List Char))
    (w1 : List Char) : ℝ × Cache :=
  let inner0 := (alookup cache w1).getD []
  let r := collectCodes w1 targets inner0
  (entropyOfCodes r.1 targets.length, aset cache w1 r.2)

/-- `Guesser.get_max_entropy_word(sources, targets)`: the empty-target early
exit returns `(sources[0] if sources else "", 0)`; otherwise the loop keeps
the first source whose entropy strictly exceeds the running maximum, which
starts at `float("-inf")`. -/
noncomputable def get_max_entropy_word (cache : Cache)
    (sources targets : List (List Char)) : (List Char × EReal) × Cache :=
  if targets.length = 0 then ((sources.headD [], (0 : EReal)), cache)
  else
    sources.foldl
      (fun (st : (List Char × EReal) × Cache) w1 =>
        let r := process_source st.2 targets w1
        if (r.1 : EReal) > st.1.2 then ((w1, (r.1 : EReal)), r.2) else (st.1, r.2))
      ((([] : List Char), (⊥ : EReal)), cache)

/-- The body of the target loop of `get_max_entropy_word`, named so the fold
of `collectCodes` can be reasoned about one step at a time. -/
def collectStep (w1 : List Char) (acc : List Nat × List (List Char × Nat))
    (w2 : List Char) : List Nat × List (List Char × Nat) :=
  match alookup acc.2 w2 with
  | some v => (acc.1 ++ [v], acc.2)
  | none => (acc.1 ++ [get_matches w1 w2], acc.2 ++ [(w2, get_matches w1 w2)])

/-- The body of the source loop of `get_max_entropy_word`, named so the fold
can be reasoned about one step at a time. -/
noncomputable def gmewStep (targets : List (List Char))
    (st : (List Char × EReal) × Cache) (w1 : List Char) : (List Char × EReal) × Cache :=
  let r := process_source st.2 targets w1
  if (r.1 : EReal) > st.1.2 then ((w1, (r.1 : EReal)), r.2) else (st.1, r.2)

/-! ### The `Guesser` strategist state and methods

The attributes of the `Guesser` object.  Random draws (`random()` shuffling
and `np.random.choice`) are threaded through an oracle of unconstrained
functions; the console, file loading and manual mode are outside the core. -/

/-- Oracle for the random draws: a permutation used by the shuffle
`sorted(letters, key=lambda x: random())` and a padding draw modelling
`np.random.choice(pool, size=k)`. -/
structure RandOracle : Type where
  perm : List Char → List Char
  pad : Nat → List Char → List Char

/-- The attribute record of a `Guesser` object. -/
structure GuesserState : Type where
  word_list_full : List (List Char)
  tried : List (List Char)
  word_trie_full : Trie
  pattern_cache : Cache
  letter_frequency_abs : List (Char × Nat)
  letter_frequency_pos : List (Nat × List (Char × Nat))
  tried_letter : List Char
  word_list : List (List Char)
  opening : List Char
  word_trie : Option Trie
  yellow : List (Char × Nat)
  gray : List Char
  green_pos : List (Nat × Char)
  gray_pos : List (Nat × Char)

/-- `Guesser.restart_game`: clear the guess history, reset the tried-letter
set to the opening word's letters, reset the candidate list to the full
dictionary and drop the per-game trie.  Nothing else is touched. -/
def restart_game (g : GuesserState) : GuesserState :=
  { g with
    tried := []
    tried_letter := g.opening.dedup
    word_list := g.word_list_full
    word_trie := none }

/-- `Guesser.update_frequencies` (both flags true, as always called): absolute
letter counts over the joined candidate words and per-position counts for the
five positions.  (Words of the dictionary have length 5; positions past a
word's end would raise in Python and are read with a default here.) -/
def update_frequencies (g : GuesserState) : GuesserState :=
  if g.word_list = [] then g
  else
    { g with
      letter_frequency_abs := counterOf g.word_list.flatten
      letter_frequency_pos :=
        (List.range 5).map fun i =>
          (i, counterOf (g.word_list.map fun w => w.getD i ' ')) }

/-- `Guesser.get_shortcut_words`: the letters occurring in the remaining
candidates that are neither green values nor yellow keys; when at most five
remain, one synthetic word made of their random shuffle padded with random
repeats. -/
def get_shortcut_words (g : GuesserState) (rand : RandOracle) : List (List Char) :=
  let letters_left := (g.letter_frequency_abs.map Prod.fst).filter fun c =>
    !decide (c ∈ g.green_pos.map Prod.snd) && !decide (c ∈ g.yellow.map Prod.fst)
  if 5 < letters_left.length then []
  else
    let sw := rand.perm letters_left
    let sw2 := if sw.length < 5 then sw ++ rand.pad (5 - sw.length) letters_left else sw
    [sw2]

/-- Stable descending insertion by count: later entries with an equal count
stay after earlier ones, matching the tie behavior of
`Counter.most_common` (sorted by count descending, insertion order on ties). -/
def insertDesc (x : Char × Nat) : List (Char × Nat) → List (Char × Nat)
  | [] => [x]
  | p :: rest => if x.2 ≤ p.2 then p :: insertDesc x rest else x :: p :: rest

/-- `Counter.most_common(k)` for the association-list counters. -/
def mostCommon (l : List (Char × Nat)) (k : Nat) : List (Char × Nat) :=
  (l.foldl (fun acc x => insertDesc x acc) []).take k

/-- `itertools.product` over a list of per-position letter lists, rightmost
position varying fastest. -/
def combos : List (List Char) → List (List Char)
  | [] => [[]]
  | l :: ls => l.flatMap fun c => (combos ls).map (c :: ·)

/-- `Guesser.frequency_guess_non_word`: all products of the top-3 letters per
position with five distinct letters; if none, the top-5 letters overall;
otherwise the candidate of maximal entropy against the candidate list.  The
trailing boolean records whether entropy scoring ran (instrumentation used to
state that the single-candidate path bypasses it). -/
noncomputable def frequency_guess_non_word (g : GuesserState) :
    List Char × GuesserState × Bool :=
  let letters_by_position := (List.range 5).map fun i =>
    (mostCommon ((alookup g.letter_frequency_pos i).getD []) 3).map Prod.fst
  let candidates := (combos letters_by_position).filter fun w => decide (w.dedup.length = 5)
  if candidates = [] then
    ((mostCommon g.letter_frequency_abs 5).map Prod.fst, g, false)
  else
    let r := get_max_entropy_word g.pattern_cache candidates g.word_list
    (r.1.1, { g with pattern_cache := r.2 }, true)

open scoped Classical in
/-- `Guesser._get_guess`: recompute frequencies; empty candidate list gives
the empty guess, a single candidate is returned immediately, fewer than 50
candidates are scored by entropy (with an optional shortcut probe) and kept
when within 0.5 bits of the maximum or from the fifth guess on; otherwise
fall back to a fresh frequency-based synthetic word.  The trailing boolean
records whether entropy scoring ran. -/
noncomputable def get_guess_core (g0 : GuesserState) (rand : RandOracle) :
    List Char × GuesserState × Bool :=
  let g := update_frequencies g0
  let n := g.word_list.length
  if n = 0 then ([], g, false)
  else if n = 1 then (g.word_list.headD [], g, false)
  else if n < 50 then
    let shortcut_words :=
      if 2 < n ∧ g.tried.length < 5 then get_shortcut_words g rand else []
    let r := get_max_entropy_word g.pattern_cache (g.word_list ++ shortcut_words) g.word_list
    let g1 := { g with pattern_cache := r.2 }
    if ((Real.logb 2 (n : ℝ) : EReal) - r.1.2 < (((1 : ℝ) / 2 : ℝ) : EReal)) ∨
        5 ≤ g1.tried.length then
      (r.1.1, g1, true)
    else
      let r2 := frequency_guess_non_word g1
      (r2.1, r2.2.1, true)
  else
    let r2 := frequency_guess_non_word g
    (r2.1, r2.2.1, r2.2.2)

/-- `Guesser.subset_trie(result)`: parse the feedback string against the last
guess into the yellow counter, gray set, green and gray positional dicts,
filter the current trie (or the full one on the first round) and install the
new trie and candidate list. -/
def subset_trie (g : GuesserState) (result : List Char) : GuesserState :=
  if g.tried = [] then g
  else if result.length ≠ 5 then g
  else
    let guess := g.tried.getLastD []
    let idx := List.range guess.length
    let yellow := counterOf
      ((idx.filter fun i => result.getD i ' ' == '-').map fun i => guess.getD i ' ')
    let gray :=
      ((idx.filter fun i => result.getD i ' ' == '+').map fun i => guess.getD i ' ').dedup
    let green_pos := (idx.filter fun i => (result.getD i ' ').isAlpha).map
      fun i => (i, guess.getD i ' ')
    let gray_pos := (idx.filter fun i =>
        result.getD i ' ' == '+' || result.getD i ' ' == '-').map
      fun i => (i, guess.getD i ' ')
    let parent := g.word_trie.getD g.word_trie_full
    let new_trie := parent.filter_words ⟨gray, gray_pos, yellow, green_pos, guess⟩
    { g with
      yellow := yellow
      gray := gray
      green_pos := green_pos
      gray_pos := gray_pos
      word_trie := some new_trie
      word_list := new_trie.list }

/-- The anti-crash loop of `Guesser.get_guess`: while the guess was already
tried or has the wrong length, redraw five letters from the pool of
previously tried letters.  The stream supplies the successive random draws;
an empty pool models the `np.random.choice` failure on an empty letter list,
and an exhausted stream models a loop that never finds a fresh word. -/
def avoidLoop (tried : List (List Char)) (pool : List Char) :
    List (List Char) → List Char → Option (List Char)
  | stream, guess =>
    if guess ∉ tried ∧ guess.length = 5 then some guess
    else
      match stream with
      | [] => none
      | d :: rest => if pool = [] then none else avoidLoop tried pool rest d

/-- `Guesser.get_guess(result)` in non-manual mode: filter on the feedback
when a guess is pending, take the opening word for the first round and the
strategist's guess afterwards, run the anti-crash loop, and append the
returned word to the guess history.  `none` models a crash or a
non-terminating loop. -/
noncomputable def get_guess_pre (g0 : GuesserState) (result : List Char)
    (rand : RandOracle) : List Char × GuesserState × Bool :=
  let g1 := if g0.tried ≠ [] ∧ result.length = 5 then subset_trie g0 result else g0
  if g1.tried = [] then (g1.opening, g1, false) else get_guess_core g1 rand

noncomputable def get_guess (g0 : GuesserState) (result : List Char) (rand : RandOracle)
    (stream : List (List Char)) : Option (List Char × GuesserState) :=
  let r := get_guess_pre g0 result rand
  match avoidLoop r.2.1.tried r.2.1.tried.flatten stream r.1 with
  | none => none
  | some w => some (w, { r.2.1 with tried := r.2.1.tried ++ [w] })


/-- A fixed (deterministic) random oracle used to instantiate theorems. -/
def sampleRand : RandOracle := ⟨fun l => l, fun _ _ => []⟩

/-- A concrete mid-game solver state used to instantiate theorems. -/
def sampleState : GuesserState where
  word_list_full := [['s','t','a','r','e'], ['c','r','a','n','e']]
  tried := [['s','t','a','r','e']]
  word_trie_full := Trie.ofList [['s','t','a','r','e'], ['c','r','a','n','e']]
  pattern_cache := []
  letter_frequency_abs := []
  letter_frequency_pos := []
  tried_letter := ['s','t','a','r','e']
  word_list := [['c','r','a','n','e']]
  opening := ['s','t','a','r','e']
  word_trie := none
  yellow := []
  gray := []
  green_pos := []
  gray_pos := []

/-- `Guesser.__init__` (non-manual, with the word list already loaded): build
the trie, start with an empty pattern cache and guess history, compute the
frequencies and the opening word once.  The constraint attributes
(yellow/gray/green) do not exist before the first `subset_trie` call and are
modelled as empty; `word_trie` is unset (None). -/
noncomputable def mkGuesser (word_list : List (List Char)) : GuesserState :=
  let g0 : GuesserState := {
    word_list_full := word_list
    tried := []
    word_trie_full := Trie.ofList word_list
    pattern_cache := []
    letter_frequency_abs := []
    letter_frequency_pos := []
    tried_letter := []
    word_list := word_list
    opening := []
    word_trie := none
    yellow := []
    gray := []
    green_pos := []
    gray_pos := [] }
  let g1 := update_frequencies g0
  let r := frequency_guess_non_word g1
  { r.2.1 with opening := r.1 }


/-- A tiny concrete heap-trie store used to instantiate theorems: address 0
is a word-end leaf, address 1 the root with the single child a -> 0. -/
def sampleStore : List NodeH := [⟨true, []⟩, ⟨false, [('a', 0)]⟩]

/-- An unconstrained filter-argument bundle. -/
def emptyArgs : FilterArgs := ⟨[], [], [], [], []⟩

theorem alookup_eq_some_mem {α β : Type} [DecidableEq α] {l : List (α × β)} {a : α} {b : β}
    (h : alookup l a = some b) : (a, b) ∈ l := by
  induction l with
  | nil => simp [alookup] at h
  | cons p rest ih =>
    cases p with
    | mk k v =>
      by_cases hp : k = a
      · simp only [alookup, hp, if_pos] at h
        have hb : v = b := by simpa using h
        subst hp; subst hb
        exact List.mem_cons_self _ _
      · simp only [alookup, hp, if_neg, not_false_iff] at h
        exact List.mem_cons_of_mem _ (ih h)

theorem alookup_of_mem_nodup {α β : Type} [DecidableEq α] {l : List (α × β)} {a : α} {b : β}
    (hnd : (l.map Prod.fst).Nodup) (h : (a, b) ∈ l) : alookup l a = some b := by
  induction l with
  | nil => simp at h
  | cons p rest ih =>
    simp only [List.map_cons, List.nodup_cons] at hnd
    rcases List.mem_cons.mp h with h1 | h1
    · subst h1; simp [alookup]
    · have hne : p.1 ≠ a := by
        intro he
        exact hnd.1 (he ▸ (List.mem_map.mpr ⟨(a, b), h1, rfl⟩))
      simp [alookup, hne, ih hnd.2 h1]

theorem countc_append (c : Char) (l1 l2 : List Char) :
    countc c (l1 ++ l2) = countc c l1 + countc c l2 := by
  induction l1 with
  | nil => simp [countc]
  | cons d rest ih => simp [countc, ih]; omega

/-- `get_matches` computes exactly the digit sum of the specification. -/
theorem get_matches_eq_digit_sum (source target : List Char) :
    get_matches source target =
      ((List.range target.length).map fun i => matchDigit source target i * 3 ^ i).sum := by
  unfold get_matches
  generalize target.length = n
  induction n with
  | zero => simp
  | succ m ih =>
    rw [List.range_succ, List.foldl_append, List.map_append, List.sum_append, ih]
    simp only [List.foldl_cons, List.foldl_nil, List.map_cons, List.map_nil, List.sum_cons,
      List.sum_nil]
    unfold matchDigit
    by_cases h1 : source.getD m ' ' = target.getD m ' '
    · rw [if_pos h1, if_pos h1]; omega
    · rw [if_neg h1, if_neg h1]
      by_cases h2 : source.getD m ' ' ∈ target
      · rw [if_pos h2, if_pos h2]; omega
      · rw [if_neg h2, if_neg h2]; omega

/-- Structural induction for the nested trie type: to prove `P` everywhere it
suffices to prove it at a node assuming it for all children. -/
theorem TrieNode.myind {P : TrieNode → Prop}
    (h : ∀ (e : Bool) (ch : List (Char × TrieNode)), (∀ cp ∈ ch, P cp.2) → P (.mk e ch)) :
    ∀ n, P n
  | .mk e ch => h e ch (fun cp hcp => TrieNode.myind h cp.2)
termination_by n => sizeOf n
decreasing_by
  have h1 := List.sizeOf_lt_of_mem hcp
  cases cp with
  | mk c sub => simp at h1 ⊢; omega

theorem alookup_aset_self {α β : Type} [DecidableEq α] (l : List (α × β)) (a : α) (b : β) :
    alookup (aset l a b) a = some b := by
  induction l with
  | nil => simp [aset, alookup]
  | cons p rest ih =>
    by_cases hp : p.1 = a
    · simp [aset, hp, alookup]
    · simp [aset, hp, alookup, ih]

theorem alookup_aset_ne {α β : Type} [DecidableEq α] (l : List (α × β)) (a c : α) (b : β)
    (h : c ≠ a) : alookup (aset l a b) c = alookup l c := by
  have hac : ¬(a = c) := fun he => h he.symm
  induction l with
  | nil => simp [aset, alookup, hac]
  | cons p rest ih =>
    by_cases hp : p.1 = a
    · simp only [aset, hp, if_pos]
      simp [alookup, hac, hp]
    · simp [aset, hp, alookup, ih]

theorem aset_map_fst {α β : Type} [DecidableEq α] (l : List (α × β)) (a : α) (b : β) :
    (aset l a b).map Prod.fst =
      if a ∈ l.map Prod.fst then l.map Prod.fst else l.map Prod.fst ++ [a] := by
  induction l with
  | nil => simp [aset]
  | cons p rest ih =>
    by_cases hp : p.1 = a
    · simp [aset, hp]
    · have hmem : a ∈ (p :: rest).map Prod.fst ↔ a ∈ rest.map Prod.fst := by
        simp only [List.map_cons, List.mem_cons]
        constructor
        · rintro (h1 | h1)
          · exact absurd h1.symm hp
          · exact h1
        · exact Or.inr
      have hpa : ¬(a = p.1) := fun he => hp he.symm
      by_cases hm : a ∈ rest.map Prod.fst
      · simp [aset, hp, ih, hm, hmem, hpa]
      · simp [aset, hp, ih, hm, hmem, hpa]

theorem aset_nodup_keys {α β : Type} [DecidableEq α] (l : List (α × β)) (a : α) (b : β)
    (hnd : (l.map Prod.fst).Nodup) : ((aset l a b).map Prod.fst).Nodup := by
  rw [aset_map_fst]
  split
  · exact hnd
  · next hna =>
    rw [List.nodup_append]
    refine ⟨hnd, List.nodup_singleton a, ?_⟩
    intro x hx1 hx2
    rw [List.mem_singleton] at hx2
    subst hx2
    exact hna hx1

theorem mem_aset {α β : Type} [DecidableEq α] {l : List (α × β)} {a : α} {b : β} {p : α × β}
    (h : p ∈ aset l a b) : p = (a, b) ∨ p ∈ l := by
  induction l with
  | nil => simpa [aset] using h
  | cons q rest ih =>
    by_cases hq : q.1 = a
    · rcases List.mem_cons.mp (by simpa [aset, hq] using h) with h1 | h1
      · exact Or.inl h1
      · exact Or.inr (List.mem_cons_of_mem _ h1)
    · rcases List.mem_cons.mp (by simpa [aset, hq] using h) with h1 | h1
      · exact Or.inr (h1 ▸ List.mem_cons_self _ _)
      · rcases ih h1 with h2 | h2
        · exact Or.inl h2
        · exact Or.inr (List.mem_cons_of_mem _ h2)

theorem aset_aset {α β : Type} [DecidableEq α] (l : List (α × β)) (a : α) (b b' : β) :
    aset (aset l a b) a b' = aset l a b' := by
  induction l with
  | nil => simp [aset]
  | cons p rest ih =>
    by_cases hp : p.1 = a
    · simp [aset, hp]
    · simp [aset, hp, ih]

theorem memNode_mk_false_nil (v : List Char) : memNode v (.mk false []) = false := by
  cases v <;> simp [memNode, TrieNode.eow, TrieNode.children, alookup]

theorem memNode_insertNode (w : List Char) : ∀ (n : TrieNode) (v : List Char),
    memNode v (insertNode w n) = true ↔ v = w ∨ memNode v n = true := by
  induction w with
  | nil =>
    intro n v
    cases n with
    | mk e ch =>
      cases v with
      | nil => simp [insertNode, memNode, TrieNode.eow, TrieNode.children]
      | cons c cs => simp [insertNode, memNode, TrieNode.eow, TrieNode.children]
  | cons c cs ih =>
    intro n v
    cases n with
    | mk e ch =>
      cases v with
      | nil => simp [insertNode, memNode, TrieNode.eow, TrieNode.children]
      | cons d ds =>
        by_cases hdc : d = c
        · subst hdc
          simp only [insertNode, memNode, TrieNode.eow, TrieNode.children,
            alookup_aset_self]
          rw [ih]
          cases hch : alookup ch d with
          | some sub => simp [hch]
          | none => simp [hch, memNode_mk_false_nil]
        · simp only [insertNode, memNode, TrieNode.eow, TrieNode.children,
            alookup_aset_ne _ _ _ _ hdc]
          have : ¬(d :: ds = c :: cs) := by simp [hdc]
          simp [this]

theorem childrenWF_iff : ∀ ch : List (Char × TrieNode),
    childrenWF ch = true ↔ ∀ cp ∈ ch, nodeWF cp.2 = true := by
  intro ch
  induction ch with
  | nil => simp [childrenWF]
  | cons p rest ih =>
    cases p with
    | mk c sub => simp [childrenWF, ih, Bool.and_eq_true]

theorem nodeWF_mk_iff (e : Bool) (ch : List (Char × TrieNode)) :
    nodeWF (.mk e ch) = true ↔ (ch.map Prod.fst).Nodup ∧ ∀ cp ∈ ch, nodeWF cp.2 = true := by
  rw [nodeWF]
  simp [Bool.and_eq_true, childrenWF_iff]

theorem nodeWF_insertNode (w : List Char) : ∀ n, nodeWF n = true → nodeWF (insertNode w n) = true := by
  induction w with
  | nil =>
    intro n hn
    cases n with
    | mk e ch => rw [nodeWF_mk_iff] at hn; simpa [insertNode, TrieNode.children, nodeWF_mk_iff] using hn
  | cons c cs ih =>
    intro n hn
    cases n with
    | mk e ch =>
      rw [nodeWF_mk_iff] at hn
      simp only [insertNode, TrieNode.children, TrieNode.eow]
      rw [nodeWF_mk_iff]
      constructor
      · exact aset_nodup_keys _ _ _ hn.1
      · intro cp hcp
        rcases mem_aset hcp with h1 | h1
        · subst h1
          apply ih
          cases hch : alookup ch c with
          | some sub =>
            simpa [hch] using hn.2 _ (alookup_eq_some_mem hch)
          | none => simp [hch, nodeWF_mk_iff]
        · exact hn.2 _ h1

theorem mem_wordListCh {u : List Char} : ∀ {ch : List (Char × TrieNode)},
    u ∈ wordListCh ch ↔ ∃ c sub, (c, sub) ∈ ch ∧ ∃ v, u = c :: v ∧ v ∈ sub.wordList := by
  intro ch
  induction ch with
  | nil => simp [wordListCh]
  | cons p rest ih =>
    cases p with
    | mk c sub =>
      simp only [wordListCh, List.mem_append, List.mem_map, ih, List.mem_cons]
      constructor
      · rintro (⟨v, hv, rfl⟩ | ⟨c', sub', hmem, v, rfl, hv⟩)
        · exact ⟨c, sub, Or.inl rfl, v, rfl, hv⟩
        · exact ⟨c', sub', Or.inr hmem, v, rfl, hv⟩
      · rintro ⟨c', sub', hmem | hmem, v, rfl, hv⟩
        · obtain ⟨he1, he2⟩ : c' = c ∧ sub' = sub := by
            constructor <;> [exact congrArg Prod.fst hmem; exact congrArg Prod.snd hmem]
          subst he1; subst he2
          exact Or.inl ⟨v, hv, rfl⟩
        · exact Or.inr ⟨c', sub', hmem, v, rfl, hv⟩

theorem nil_not_mem_wordListCh (ch : List (Char × TrieNode)) : [] ∉ wordListCh ch := by
  intro h
  rcases mem_wordListCh.mp h with ⟨c, sub, _, v, hv, _⟩
  exact List.cons_ne_nil c v hv.symm

theorem mem_wordList_iff_memNode : ∀ n, nodeWF n = true →
    ∀ v, v ∈ n.wordList ↔ memNode v n = true := by
  apply TrieNode.myind
  intro e ch IH hwf v
  rw [nodeWF_mk_iff] at hwf
  rw [TrieNode.wordList]
  cases v with
  | nil =>
    cases e <;> simp [memNode, TrieNode.eow, nil_not_mem_wordListCh]
  | cons c cs =>
    have hne : (c :: cs) ∉ (if e then [[[]]] else []).flatten := by
      cases e <;> simp
    have hsplit : (c :: cs) ∈ (if e then [([] : List Char)] else []) ++ wordListCh ch ↔
        (c :: cs) ∈ wordListCh ch := by
      cases e <;> simp
    rw [hsplit, mem_wordListCh]
    simp only [memNode, TrieNode.children]
    constructor
    · rintro ⟨c', sub', hmem, v', hv', hmemv⟩
      obtain ⟨hc, hv⟩ := List.cons_eq_cons.mp hv'
      rw [← hc] at hmem
      rw [← hv] at hmemv
      rw [alookup_of_mem_nodup hwf.1 hmem]
      exact (IH _ hmem (hwf.2 _ hmem) cs).mp hmemv
    · intro h
      cases hch : alookup ch c with
      | none => rw [hch] at h; exact absurd h (by simp)
      | some sub =>
        rw [hch] at h
        have hmem := alookup_eq_some_mem hch
        exact ⟨c, sub, hmem, cs, rfl, (IH _ hmem (hwf.2 _ hmem) cs).mpr h⟩

theorem head_mem_keys_of_mem_wordListCh {c : Char} {v : List Char}
    {ch : List (Char × TrieNode)} (h : (c :: v) ∈ wordListCh ch) : c ∈ ch.map Prod.fst := by
  rcases mem_wordListCh.mp h with ⟨c', sub', hmem, v', hv', _⟩
  obtain ⟨hc, _⟩ := List.cons_eq_cons.mp hv'
  rw [hc]
  exact List.mem_map.mpr ⟨(c', sub'), hmem, rfl⟩

theorem wordList_nodup : ∀ n, nodeWF n = true → n.wordList.Nodup := by
  apply TrieNode.myind
  intro e ch IH hwf
  rw [nodeWF_mk_iff] at hwf
  rw [TrieNode.wordList]
  have hch : ∀ ch' : List (Char × TrieNode), (ch'.map Prod.fst).Nodup →
      (∀ cp, cp ∈ ch' → cp ∈ ch) → (wordListCh ch').Nodup := by
    intro ch'
    induction ch' with
    | nil => intro _ _; simp [wordListCh]
    | cons p rest ihr =>
      intro hnd hsub
      cases p with
      | mk c sub =>
        simp only [List.map_cons, List.nodup_cons] at hnd
        rw [wordListCh, List.nodup_append]
        have hsubmem : ((c, sub) : Char × TrieNode) ∈ ch := hsub _ (List.mem_cons_self _ _)
        refine ⟨?_, ihr hnd.2 (fun cp hcp => hsub _ (List.mem_cons_of_mem _ hcp)), ?_⟩
        · exact List.Nodup.map (fun v1 v2 hv => by simpa using hv)
            (IH _ hsubmem (hwf.2 _ hsubmem))
        · intro u hu1 hu2
          rcases List.mem_map.mp hu1 with ⟨v, _, rfl⟩
          exact hnd.1 (head_mem_keys_of_mem_wordListCh hu2)
  have hlist := hch ch hwf.1 (fun cp hcp => hcp)
  cases e
  · simpa using hlist
  · simp only [if_true]
    exact List.nodup_cons.mpr ⟨nil_not_mem_wordListCh ch, hlist⟩

theorem nodeWF_foldl_insert : ∀ (ws : List (List Char)) (t : Trie), nodeWF t.root = true →
    nodeWF ((ws.foldl Trie.insert t).root) = true := by
  intro ws
  induction ws with
  | nil => intro t h; simpa using h
  | cons w rest ih =>
    intro t h
    exact ih _ (nodeWF_insertNode w _ h)

theorem trie_ofList_root_wf (ws : List (List Char)) : nodeWF (Trie.ofList ws).root = true :=
  nodeWF_foldl_insert ws Trie.empty (by decide)

theorem memNode_foldl_insert : ∀ (ws : List (List Char)) (t : Trie) (v : List Char),
    memNode v ((ws.foldl Trie.insert t).root) = true ↔ v ∈ ws ∨ memNode v t.root = true := by
  intro ws
  induction ws with
  | nil => intro t v; simp
  | cons w rest ih =>
    intro t v
    rw [List.foldl_cons, ih]
    have : memNode v (Trie.insert t w).root = true ↔ v = w ∨ memNode v t.root = true :=
      memNode_insertNode w t.root v
    rw [this, List.mem_cons]
    tauto

theorem insertNode_idem (w : List Char) : ∀ n, insertNode w (insertNode w n) = insertNode w n := by
  induction w with
  | nil => intro n; cases n with | mk e ch => simp [insertNode, TrieNode.children]
  | cons c cs ih =>
    intro n
    cases n with
    | mk e ch =>
      simp only [insertNode, TrieNode.children, TrieNode.eow, alookup_aset_self,
        Option.getD_some, aset_aset]
      rw [ih]

/-- C6: building a trie by inserting each word of an arbitrary list (duplicates
allowed) and reading back the trie structure yields exactly the set of distinct
input words: membership in the read-back equals membership in the input list,
the read-back enumeration has no duplicates, and re-inserting an already
present word leaves the trie structure unchanged. -/
theorem claim_C6_trie_roundtrip (ws : List (List Char)) :
    (∀ v, v ∈ (Trie.ofList ws).root.wordList ↔ v ∈ ws) ∧
    (Trie.ofList ws).root.wordList.Nodup ∧
    (∀ w n, insertNode w (insertNode w n) = insertNode w n) := by
  have hwf := trie_ofList_root_wf ws
  refine ⟨?_, wordList_nodup _ hwf, insertNode_idem⟩
  intro v
  rw [mem_wordList_iff_memNode _ hwf v, Trie.ofList, memNode_foldl_insert]
  simp [Trie.empty, memNode_mk_false_nil]

/-- C2: `get_matches(guess, target)` on length-5 words is the base-3 digit sum
of the specification (digit 2 for an exact positional match, 1 for a letter
present anywhere in the target, 0 otherwise), its value is at most `3^5 - 1`,
and `get_matches(w, w)` is the all-exact-match code `3^5 - 1`. -/
theorem claim_C2_get_matches (source target : List Char)
    (hs : source.length = 5) (ht : target.length = 5) :
    get_matches source target =
      ((List.range 5).map fun i => matchDigit source target i * 3 ^ i).sum ∧
    get_matches source target ≤ 3 ^ 5 - 1 ∧
    get_matches target target = 3 ^ 5 - 1 := by
  have h1 : get_matches source target =
      ((List.range 5).map fun i => matchDigit source target i * 3 ^ i).sum := by
    rw [get_matches_eq_digit_sum, ht]
  refine ⟨h1, ?_, ?_⟩
  · rw [h1]
    have hle : ((List.range 5).map fun i => matchDigit source target i * 3 ^ i).sum ≤
        ((List.range 5).map fun i => 2 * 3 ^ i).sum := by
      apply List.sum_le_sum
      intro i _
      have hd : matchDigit source target i ≤ 2 := by
        unfold matchDigit
        split
        · omega
        · split <;> omega
      exact Nat.mul_le_mul_right _ hd
    have hc : ((List.range 5).map fun i => 2 * 3 ^ i).sum = 3 ^ 5 - 1 := by decide
    omega
  · rw [get_matches_eq_digit_sum, ht]
    have hd : ∀ i, matchDigit target target i = 2 := by
      intro i; unfold matchDigit; simp
    simp only [hd]
    decide

/-- Witness for C2 at a concrete pair of five-letter words. -/
theorem claim_C2_get_matches_witness :
    get_matches ['c','r','a','n','e'] ['s','l','a','t','e'] =
      ((List.range 5).map fun i =>
        matchDigit ['c','r','a','n','e'] ['s','l','a','t','e'] i * 3 ^ i).sum ∧
    get_matches ['c','r','a','n','e'] ['s','l','a','t','e'] ≤ 3 ^ 5 - 1 ∧
    get_matches ['s','l','a','t','e'] ['s','l','a','t','e'] = 3 ^ 5 - 1 :=
  claim_C2_get_matches ['c','r','a','n','e'] ['s','l','a','t','e'] (by decide) (by decide)

theorem acceptB_posCheck {a : FilterArgs} {s : List Char} {n : TrieNode} {w : List Char}
    {y : List (Char × Nat)} (h : acceptB a s n w y = true) : posCheck a w = true := by
  cases s <;> (rw [acceptB] at h; simp only [Bool.and_eq_true] at h; exact h.1)

theorem dfsCh_valid_iff (a : FilterArgs) (ch : List (Char × TrieNode))
    (hmem : ∀ cp ∈ ch, ∀ (w : List Char) (y : List (Char × Nat)),
      ((dfs a cp.2 w y).1 = true ↔ (dfs a cp.2 w y).2.2 ≠ [])) :
    ∀ w y, ((dfsCh a ch w y).1 = true ↔ (dfsCh a ch w y).2.2 ≠ []) := by
  induction ch with
  | nil => intro w y; simp [dfsCh]
  | cons p rest ihr =>
    intro w y
    have hrest := ihr (fun cp hcp => hmem _ (List.mem_cons_of_mem _ hcp))
    cases p with
    | mk c sub =>
      rw [dfsCh]
      by_cases hskip : skipChar a y c = true
      · simpa [hskip] using hrest w y
      · have hsub := hmem _ (List.mem_cons_self _ _) (w ++ [c]) (ydec y c)
        simp only [Bool.not_eq_true] at hskip
        simp only [hskip, Bool.false_eq_true, if_false]
        constructor
        · intro h
          simp only [Bool.or_eq_true] at h
          rcases h with h1 | h1
          · intro hemp
            rcases List.append_eq_nil.mp hemp with ⟨he1, _⟩
            exact (hsub.mp h1) he1
          · intro hemp
            rcases List.append_eq_nil.mp hemp with ⟨_, he2⟩
            exact ((hrest w y).mp h1) he2
        · intro h
          simp only [Bool.or_eq_true]
          by_cases h1 : (dfs a sub (w ++ [c]) (ydec y c)).2.2 = []
          · by_cases h2 : (dfsCh a rest w y).2.2 = []
            · exact absurd (by rw [h1, h2]; rfl) h
            · exact Or.inr ((hrest w y).mpr h2)
          · exact Or.inl (hsub.mpr h1)

theorem dfs_valid_iff (a : FilterArgs) : ∀ n : TrieNode, ∀ (w : List Char) (y : List (Char × Nat)),
    ((dfs a n w y).1 = true ↔ (dfs a n w y).2.2 ≠ []) := by
  apply TrieNode.myind
  intro e ch IH w y
  rw [dfs]
  by_cases hpos : posCheck a w = true
  · cases e with
    | true =>
      by_cases hg : w = a.guess
      · simp [hpos, hg]
      · by_cases hy : ycheckFinal y w = true
        · simp [hpos, hg, hy]
        · simp only [Bool.not_eq_true] at hy
          simp [hpos, hg, hy]
    | false =>
      simpa [hpos] using dfsCh_valid_iff a ch IH w y
  · simp only [Bool.not_eq_true] at hpos
    simp [hpos]

theorem dfsCh_words_iff (a : FilterArgs) (ch : List (Char × TrieNode))
    (hmem : ∀ cp ∈ ch, nodeWF cp.2 = true → ∀ (w : List Char) (y : List (Char × Nat))
      (u : List Char),
      (u ∈ (dfs a cp.2 w y).2.2 ↔ ∃ s, u = w ++ s ∧ acceptB a s cp.2 w y = true))
    (hwf : ∀ cp ∈ ch, nodeWF cp.2 = true) :
    ∀ w y u, (u ∈ (dfsCh a ch w y).2.2 ↔
      ∃ c sub s2, (c, sub) ∈ ch ∧ skipChar a y c = false ∧
        u = w ++ c :: s2 ∧ acceptB a s2 sub (w ++ [c]) (ydec y c) = true) := by
  induction ch with
  | nil => intro w y u; simp [dfsCh]
  | cons p rest ihr =>
    intro w y u
    have hrest := ihr (fun cp hcp => hmem _ (List.mem_cons_of_mem _ hcp))
      (fun cp hcp => hwf _ (List.mem_cons_of_mem _ hcp))
    cases p with
    | mk c sub =>
      rw [dfsCh]
      by_cases hskip : skipChar a y c = true
      · rw [if_pos hskip, hrest w y u]
        constructor
        · rintro ⟨c', sub', s2, hm, hsk, he, hacc⟩
          exact ⟨c', sub', s2, List.mem_cons_of_mem _ hm, hsk, he, hacc⟩
        · rintro ⟨c', sub', s2, hm, hsk, he, hacc⟩
          rcases List.mem_cons.mp hm with h1 | h1
          · obtain ⟨rfl, rfl⟩ := Prod.mk.injEq .. ▸ h1
            exact absurd hskip (by rw [hsk]; simp)
          · exact ⟨c', sub', s2, h1, hsk, he, hacc⟩
      · simp only [Bool.not_eq_true] at hskip
        rw [if_neg (by rw [hskip]; simp)]
        simp only [List.mem_append]
        have hhead := hmem _ (List.mem_cons_self _ _) (hwf _ (List.mem_cons_self _ _))
          (w ++ [c]) (ydec y c) u
        rw [hhead, hrest w y u]
        constructor
        · rintro (⟨s2, he, hacc⟩ | ⟨c', sub', s2, hm, hsk, he, hacc⟩)
          · exact ⟨c, sub, s2, List.mem_cons_self _ _, hskip,
              by rw [he, List.append_assoc]; rfl, hacc⟩
          · exact ⟨c', sub', s2, List.mem_cons_of_mem _ hm, hsk, he, hacc⟩
        · rintro ⟨c', sub', s2, hm, hsk, he, hacc⟩
          rcases List.mem_cons.mp hm with h1 | h1
          · have hc : c' = c := congrArg Prod.fst h1
            have hs : sub' = sub := congrArg Prod.snd h1
            subst hc; subst hs
            exact Or.inl ⟨s2, by rw [he, List.append_assoc]; rfl, hacc⟩
          · exact Or.inr ⟨c', sub', s2, h1, hsk, he, hacc⟩

theorem dfs_words_iff (a : FilterArgs) : ∀ n : TrieNode, nodeWF n = true →
    ∀ (w : List Char) (y : List (Char × Nat)) (u : List Char),
    (u ∈ (dfs a n w y).2.2 ↔ ∃ s, u = w ++ s ∧ acceptB a s n w y = true) := by
  apply TrieNode.myind
  intro e ch IH hwf w y u
  rw [nodeWF_mk_iff] at hwf
  rw [dfs]
  by_cases hpos : posCheck a w = true
  · rw [if_pos hpos]
    cases e with
    | true =>
      by_cases hck : (decide (w ≠ a.guess) && ycheckFinal y w) = true
      · rw [if_pos rfl, if_pos hck]
        simp only [List.mem_singleton]
        constructor
        · intro h
          refine ⟨[], by simp [h], ?_⟩
          rw [acceptB]
          simp only [TrieNode.eow, if_pos rfl]
          rw [hpos, hck]
          simp
        · rintro ⟨s, he, hacc⟩
          cases s with
          | nil => simpa using he
          | cons c s2 =>
            rw [acceptB] at hacc
            simp [TrieNode.eow] at hacc
      · rw [if_pos rfl, if_neg hck]
        simp only [List.not_mem_nil, false_iff, not_exists, not_and]
        intro s he
        cases s with
        | nil =>
          rw [acceptB]
          simp only [TrieNode.eow, if_pos rfl]
          intro hacc
          simp only [Bool.and_eq_true] at hacc
          exact hck hacc.2
        | cons c s2 =>
          rw [acceptB]
          simp [TrieNode.eow]
    | false =>
      rw [if_neg (by simp)]
      have hhh := dfsCh_words_iff a ch IH hwf.2 w y u
      constructor
      · intro hmem0
        rcases hhh.mp hmem0 with ⟨c, sub, s2, hm, hsk, he, hacc⟩
        refine ⟨c :: s2, he, ?_⟩
        rw [acceptB, TrieNode.eow, TrieNode.children]
        rw [alookup_of_mem_nodup hwf.1 hm]
        simp [hpos, hsk, hacc]
      · rintro ⟨s, he, hacc⟩
        cases s with
        | nil => rw [acceptB, TrieNode.eow] at hacc; simp at hacc
        | cons c s2 =>
          rw [acceptB, TrieNode.eow, TrieNode.children] at hacc
          simp only [hpos, Bool.true_and, Bool.false_eq_true, if_false,
            Bool.and_eq_true] at hacc
          rcases hacc with ⟨hsk, hrest⟩
          apply hhh.mpr
          cases hlk : alookup ch c with
          | none => rw [hlk] at hrest; simp at hrest
          | some sub =>
            rw [hlk] at hrest
            exact ⟨c, sub, s2, alookup_eq_some_mem hlk,
              by simpa using hsk, he, hrest⟩
  · simp only [Bool.not_eq_true] at hpos
    simp only [hpos, Bool.false_eq_true, if_false, List.not_mem_nil, false_iff, not_exists,
      not_and]
    intro s he hacc
    rw [acceptB_posCheck hacc] at hpos
    exact Bool.true_eq_false.mp hpos

theorem alookup_eq_none_iff {α β : Type} [DecidableEq α] (l : List (α × β)) (a : α) :
    alookup l a = none ↔ a ∉ l.map Prod.fst := by
  induction l with
  | nil => simp [alookup]
  | cons p rest ih =>
    by_cases hp : p.1 = a
    · simp [alookup, hp]
    · have hap : ¬(a = p.1) := fun he => hp he.symm
      simp [alookup, hp, ih, hap]

theorem dfsCh_keys_sublist (a : FilterArgs) : ∀ (ch : List (Char × TrieNode)) (w : List Char)
    (y : List (Char × Nat)),
    ((dfsCh a ch w y).2.1.map Prod.fst).Sublist (ch.map Prod.fst) := by
  intro ch
  induction ch with
  | nil => intro w y; simp [dfsCh]
  | cons p rest ihr =>
    intro w y
    cases p with
    | mk c sub =>
      rw [dfsCh]
      by_cases hskip : skipChar a y c = true
      · rw [if_pos hskip]
        exact (ihr w y).trans (List.sublist_cons_self _ _)
      · rw [if_neg hskip]
        by_cases hv : (dfs a sub (w ++ [c]) (ydec y c)).1 = true
        · simp only [hv, if_true, List.singleton_append, List.map_cons]
          exact List.Sublist.cons₂ _ (ihr w y)
        · simp only [Bool.not_eq_true] at hv
          simp only [hv, Bool.false_eq_true, if_false, List.nil_append, List.map_cons]
          exact (ihr w y).trans (List.sublist_cons_self _ _)

theorem dfsCh_wf (a : FilterArgs) (ch : List (Char × TrieNode))
    (hmem : ∀ cp ∈ ch, nodeWF cp.2 = true → ∀ (w : List Char) (y : List (Char × Nat)),
      nodeWF (dfs a cp.2 w y).2.1 = true)
    (hwf : ∀ cp ∈ ch, nodeWF cp.2 = true) :
    ∀ w y, ∀ cp ∈ (dfsCh a ch w y).2.1, nodeWF cp.2 = true := by
  induction ch with
  | nil => intro w y cp hcp; simp [dfsCh] at hcp
  | cons p rest ihr =>
    intro w y cp hcp
    have hr := ihr (fun q hq => hmem _ (List.mem_cons_of_mem _ hq))
      (fun q hq => hwf _ (List.mem_cons_of_mem _ hq)) w y
    cases p with
    | mk c sub =>
      rw [dfsCh] at hcp
      by_cases hskip : skipChar a y c = true
      · rw [if_pos hskip] at hcp
        exact hr cp hcp
      · rw [if_neg hskip] at hcp
        by_cases hv : (dfs a sub (w ++ [c]) (ydec y c)).1 = true
        · simp only [hv, if_true, List.singleton_append, List.mem_cons] at hcp
          rcases hcp with h1 | h1
          · rw [h1]
            exact hmem _ (List.mem_cons_self _ _) (hwf _ (List.mem_cons_self _ _)) _ _
          · exact hr cp h1
        · simp only [Bool.not_eq_true] at hv
          simp only [hv, Bool.false_eq_true, if_false, List.nil_append] at hcp
          exact hr cp hcp

theorem dfs_wf (a : FilterArgs) : ∀ n, nodeWF n = true →
    ∀ (w : List Char) (y : List (Char × Nat)), nodeWF (dfs a n w y).2.1 = true := by
  apply TrieNode.myind
  intro e ch IH hwf w y
  rw [nodeWF_mk_iff] at hwf
  rw [dfs]
  by_cases hpos : posCheck a w = true
  · rw [if_pos hpos]
    cases e with
    | true =>
      by_cases hck : (decide (w ≠ a.guess) && ycheckFinal y w) = true
      · rw [if_pos rfl, if_pos hck]
        rfl
      · rw [if_pos rfl, if_neg hck]
        rfl
    | false =>
      rw [if_neg (by simp)]
      rw [nodeWF_mk_iff]
      exact ⟨List.Nodup.sublist (dfsCh_keys_sublist a ch w y) hwf.1,
        dfsCh_wf a ch IH hwf.2 w y⟩
  · rw [if_neg hpos]
    rfl

theorem dfsCh_alookup (a : FilterArgs) : ∀ (ch : List (Char × TrieNode)),
    (ch.map Prod.fst).Nodup →
    ∀ (w : List Char) (y : List (Char × Nat)) (c : Char),
    alookup (dfsCh a ch w y).2.1 c =
      (match alookup ch c with
       | none => none
       | some sub =>
         if skipChar a y c = true then none
         else if (dfs a sub (w ++ [c]) (ydec y c)).1 = true
           then some (dfs a sub (w ++ [c]) (ydec y c)).2.1 else none) := by
  intro ch
  induction ch with
  | nil => intro _ w y c; simp [dfsCh, alookup]
  | cons p rest ihr =>
    intro hnd w y c
    cases p with
    | mk c0 sub0 =>
      simp only [List.map_cons, List.nodup_cons] at hnd
      have hnone0 : c0 ∉ (dfsCh a rest w y).2.1.map Prod.fst :=
        fun hmem => hnd.1 ((dfsCh_keys_sublist a rest w y).subset hmem)
      rw [dfsCh]
      by_cases hskip : skipChar a y c0 = true
      · rw [if_pos hskip]
        by_cases hc : c0 = c
        · subst hc
          rw [(alookup_eq_none_iff _ _).mpr hnone0]
          simp [alookup, hskip]
        · rw [ihr hnd.2 w y c]
          simp [alookup, hc]
      · rw [if_neg hskip]
        by_cases hv : (dfs a sub0 (w ++ [c0]) (ydec y c0)).1 = true
        · simp only [hv, if_true, List.singleton_append]
          by_cases hc : c0 = c
          · subst hc
            simp [alookup, hskip, hv]
          · simp only [alookup, hc, if_neg, not_false_iff]
            rw [ihr hnd.2 w y c]
        · simp only [Bool.not_eq_true] at hv
          simp only [hv, Bool.false_eq_true, if_false, List.nil_append]
          by_cases hc : c0 = c
          · subst hc
            rw [(alookup_eq_none_iff _ _).mpr hnone0]
            simp [alookup, hskip, hv]
          · rw [ihr hnd.2 w y c]
            simp [alookup, hc]

theorem acceptB_false_of_not_valid (a : FilterArgs) {n : TrieNode} (hwf : nodeWF n = true)
    {w : List Char} {y : List (Char × Nat)} (hv : (dfs a n w y).1 = false) (s : List Char) :
    acceptB a s n w y = false := by
  by_contra h
  simp only [Bool.not_eq_false] at h
  have hmem : (w ++ s) ∈ (dfs a n w y).2.2 :=
    (dfs_words_iff a n hwf w y (w ++ s)).mpr ⟨s, rfl, h⟩
  have hne := List.ne_nil_of_mem hmem
  have := (dfs_valid_iff a n w y).mpr hne
  rw [hv] at this
  exact Bool.false_ne_true this

theorem dfs_posfail (a : FilterArgs) (e : Bool) (ch : List (Char × TrieNode))
    (w : List Char) (y : List (Char × Nat)) (hpos : posCheck a w = false) :
    dfs a (.mk e ch) w y = (false, .mk false [], []) := by
  rw [dfs, if_neg (by rw [hpos]; simp)]

theorem dfs_eow_pass (a : FilterArgs) (ch : List (Char × TrieNode))
    (w : List Char) (y : List (Char × Nat)) (hpos : posCheck a w = true)
    (hck : (decide (w ≠ a.guess) && ycheckFinal y w) = true) :
    dfs a (.mk true ch) w y = (true, .mk true [], [w]) := by
  rw [dfs, if_pos hpos, if_pos rfl, if_pos hck]

theorem dfs_eow_fail (a : FilterArgs) (ch : List (Char × TrieNode))
    (w : List Char) (y : List (Char × Nat)) (hpos : posCheck a w = true)
    (hck : (decide (w ≠ a.guess) && ycheckFinal y w) = false) :
    dfs a (.mk true ch) w y = (false, .mk false [], []) := by
  rw [dfs, if_pos hpos, if_pos rfl, if_neg (by rw [hck]; simp)]

theorem dfs_mk_false (a : FilterArgs) (ch : List (Char × TrieNode))
    (w : List Char) (y : List (Char × Nat)) (hpos : posCheck a w = true) :
    dfs a (.mk false ch) w y =
      ((dfsCh a ch w y).1, .mk false (dfsCh a ch w y).2.1, (dfsCh a ch w y).2.2) := by
  rw [dfs, if_pos hpos, if_neg (by simp)]

theorem memNode_cons (c : Char) (s2 : List Char) (n : TrieNode) :
    memNode (c :: s2) n =
      (match alookup n.children c with
       | some sub => memNode s2 sub
       | none => false) := by
  rw [memNode]

theorem acceptB_nil (a : FilterArgs) (n : TrieNode) (w : List Char) (y : List (Char × Nat)) :
    acceptB a [] n w y =
      (posCheck a w && (if n.eow then decide (w ≠ a.guess) && ycheckFinal y w else false)) := by
  rw [acceptB]

theorem acceptB_cons (a : FilterArgs) (c : Char) (s2 : List Char) (n : TrieNode)
    (w : List Char) (y : List (Char × Nat)) :
    acceptB a (c :: s2) n w y =
      (posCheck a w &&
        (if n.eow then false
         else
           !(skipChar a y c) &&
           (match alookup n.children c with
            | none => false
            | some sub => acceptB a s2 sub (w ++ [c]) (ydec y c)))) := by
  rw [acceptB]

theorem dfs_memNode (a : FilterArgs) : ∀ n, nodeWF n = true →
    ∀ (w : List Char) (y : List (Char × Nat)) (s : List Char),
    memNode s (dfs a n w y).2.1 = acceptB a s n w y := by
  apply TrieNode.myind
  intro e ch IH hwf w y s
  rw [nodeWF_mk_iff] at hwf
  by_cases hpos : posCheck a w = true
  · cases e with
    | true =>
      by_cases hck : (decide (w ≠ a.guess) && ycheckFinal y w) = true
      · rw [dfs_eow_pass a ch w y hpos hck]
        cases s with
        | nil =>
          rw [acceptB_nil]
          simp only [memNode, TrieNode.eow]
          rw [hpos, hck]
          simp
        | cons c s2 =>
          rw [acceptB_cons]
          simp [memNode_cons, TrieNode.eow, TrieNode.children, alookup]
      · simp only [Bool.not_eq_true] at hck
        rw [dfs_eow_fail a ch w y hpos hck]
        cases s with
        | nil =>
          rw [acceptB_nil]
          simp only [memNode, TrieNode.eow]
          rw [hpos, hck]
          simp
        | cons c s2 =>
          rw [acceptB_cons]
          simp [memNode_cons, TrieNode.eow, TrieNode.children, alookup]
    | false =>
      rw [dfs_mk_false a ch w y hpos]
      cases s with
      | nil =>
        rw [acceptB_nil]
        simp [memNode, TrieNode.eow]
      | cons c s2 =>
        rw [acceptB_cons]
        rw [memNode_cons]
        simp only [TrieNode.eow, TrieNode.children]
        rw [dfsCh_alookup a ch hwf.1 w y c]
        cases hlk : alookup ch c with
        | none => simp [hpos]
        | some sub =>
          have hmemch := alookup_eq_some_mem hlk
          have hsubwf := hwf.2 _ hmemch
          by_cases hskip : skipChar a y c = true
          · simp [hskip, hpos]
          · simp only [Bool.not_eq_true] at hskip
            by_cases hv : (dfs a sub (w ++ [c]) (ydec y c)).1 = true
            · simp only [hskip, Bool.false_eq_true, if_false, hv, if_true]
              rw [IH _ hmemch hsubwf (w ++ [c]) (ydec y c) s2]
              simp [hpos, hskip]
            · simp only [Bool.not_eq_true] at hv
              have hacc0 := acceptB_false_of_not_valid a hsubwf hv s2
              simp [hskip, hv, hacc0, hpos]
  · simp only [Bool.not_eq_true] at hpos
    rw [dfs_posfail a e ch w y hpos]
    cases s with
    | nil => rw [acceptB_nil]; simp [memNode, TrieNode.eow, hpos]
    | cons c s2 => rw [acceptB_cons]; simp [memNode_cons, TrieNode.children, alookup, hpos]

theorem dfs_acceptB_stable (a : FilterArgs) : ∀ n, nodeWF n = true →
    ∀ (w : List Char) (y : List (Char × Nat)) (s : List Char),
    acceptB a s (dfs a n w y).2.1 w y = acceptB a s n w y := by
  apply TrieNode.myind
  intro e ch IH hwf w y s
  rw [nodeWF_mk_iff] at hwf
  by_cases hpos : posCheck a w = true
  · cases e with
    | true =>
      by_cases hck : (decide (w ≠ a.guess) && ycheckFinal y w) = true
      · rw [dfs_eow_pass a ch w y hpos hck]
        cases s with
        | nil => rw [acceptB_nil, acceptB_nil]; simp [TrieNode.eow]
        | cons c s2 => rw [acceptB_cons, acceptB_cons]; simp [TrieNode.eow]
      · simp only [Bool.not_eq_true] at hck
        rw [dfs_eow_fail a ch w y hpos hck]
        cases s with
        | nil =>
          rw [acceptB_nil, acceptB_nil]
          simp only [TrieNode.eow]
          rw [hck]
          simp
        | cons c s2 =>
          rw [acceptB_cons, acceptB_cons]
          simp [TrieNode.eow, TrieNode.children, alookup]
    | false =>
      rw [dfs_mk_false a ch w y hpos]
      cases s with
      | nil => rw [acceptB_nil, acceptB_nil]; simp [TrieNode.eow]
      | cons c s2 =>
        rw [acceptB_cons, acceptB_cons]
        simp only [TrieNode.eow, TrieNode.children]
        rw [dfsCh_alookup a ch hwf.1 w y c]
        cases hlk : alookup ch c with
        | none => simp
        | some sub =>
          have hmemch := alookup_eq_some_mem hlk
          have hsubwf := hwf.2 _ hmemch
          by_cases hskip : skipChar a y c = true
          · simp [hskip]
          · simp only [Bool.not_eq_true] at hskip
            by_cases hv : (dfs a sub (w ++ [c]) (ydec y c)).1 = true
            · simp only [hskip, Bool.false_eq_true, if_false, hv, if_true]
              rw [IH _ hmemch hsubwf (w ++ [c]) (ydec y c) s2]
            · simp only [Bool.not_eq_true] at hv
              have hacc0 := acceptB_false_of_not_valid a hsubwf hv s2
              simp [hskip, hv, hacc0]
  · simp only [Bool.not_eq_true] at hpos
    rw [dfs_posfail a e ch w y hpos]
    cases s with
    | nil => rw [acceptB_nil, acceptB_nil]; rw [hpos]; simp
    | cons c s2 => rw [acceptB_cons, acceptB_cons]; rw [hpos]; simp

theorem dfsCh_words_sublist (a : FilterArgs) : ∀ ch : List (Char × TrieNode),
    (∀ cp ∈ ch, ∀ (w : List Char) (y : List (Char × Nat)),
      ((dfs a cp.2 w y).2.2).Sublist (cp.2.wordList.map (w ++ ·))) →
    ∀ w y, ((dfsCh a ch w y).2.2).Sublist ((wordListCh ch).map (w ++ ·)) := by
  intro ch
  induction ch with
  | nil => intro _ w y; simp [dfsCh, wordListCh]
  | cons p rest ihr =>
    intro hmem w y
    have hrest := ihr (fun cp hcp => hmem _ (List.mem_cons_of_mem _ hcp)) w y
    cases p with
    | mk c sub =>
      rw [dfsCh, wordListCh, List.map_append]
      have heq : sub.wordList.map ((w ++ [c]) ++ ·) =
          (sub.wordList.map (c :: ·)).map (w ++ ·) := by
        rw [List.map_map]
        apply List.map_congr_left
        intro v _
        simp
      by_cases hskip : skipChar a y c = true
      · rw [if_pos hskip]
        exact hrest.trans (List.sublist_append_right _ _)
      · rw [if_neg hskip]
        have h1 := hmem _ (List.mem_cons_self _ _) (w ++ [c]) (ydec y c)
        exact List.Sublist.append (heq ▸ h1) hrest

theorem dfs_words_sublist (a : FilterArgs) : ∀ n, ∀ (w : List Char) (y : List (Char × Nat)),
    ((dfs a n w y).2.2).Sublist (n.wordList.map (w ++ ·)) := by
  apply TrieNode.myind
  intro e ch IH w y
  by_cases hpos : posCheck a w = true
  · cases e with
    | true =>
      rw [TrieNode.wordList]
      by_cases hck : (decide (w ≠ a.guess) && ycheckFinal y w) = true
      · rw [dfs_eow_pass a ch w y hpos hck]
        simp only [if_true, List.singleton_append, List.map_cons, List.append_nil]
        exact List.Sublist.cons₂ _ (List.nil_sublist _)
      · simp only [Bool.not_eq_true] at hck
        rw [dfs_eow_fail a ch w y hpos hck]
        exact List.nil_sublist _
    | false =>
      rw [dfs_mk_false a ch w y hpos, TrieNode.wordList]
      simp only [Bool.false_eq_true, if_false, List.nil_append]
      exact dfsCh_words_sublist a ch IH w y
  · simp only [Bool.not_eq_true] at hpos
    rw [dfs_posfail a e ch w y hpos]
    exact List.nil_sublist _

theorem yellowAfter_nil (y : List (Char × Nat)) : yellowAfter y [] = y := rfl

theorem yellowAfter_cons (y : List (Char × Nat)) (c : Char) (s : List Char) :
    yellowAfter y (c :: s) = yellowAfter (ydec y c) s := rfl

theorem isPrefix_cons_iff {α : Type} {p : List α} {c : α} {s : List α} :
    p <+: (c :: s) ↔ p = [] ∨ ∃ p2, p = c :: p2 ∧ p2 <+: s := by
  constructor
  · intro h
    cases p with
    | nil => exact Or.inl rfl
    | cons d p2 =>
      rcases h with ⟨t, ht⟩
      rw [List.cons_append] at ht
      obtain ⟨hd, hrest⟩ := List.cons_eq_cons.mp ht
      exact Or.inr ⟨p2, by rw [hd], ⟨t, hrest⟩⟩
  · rintro (rfl | ⟨p2, rfl, t, ht⟩)
    · exact ⟨c :: s, rfl⟩
    · exact ⟨t, by rw [List.cons_append, ht]⟩

theorem acceptB_iff_path (a : FilterArgs) : ∀ (s : List Char) (n : TrieNode) (w : List Char)
    (y : List (Char × Nat)),
    acceptB a s n w y = true ↔
      (memNode s n = true ∧
       (∀ p : List Char, p <+: s → p ≠ s → memNode p n = false) ∧
       posCheck a w = true ∧
       (∀ j, j < s.length → posCheck a (w ++ s.take (j + 1)) = true) ∧
       (∀ j, j < s.length → skipChar a (yellowAfter y (s.take j)) (s.getD j ' ') = false) ∧
       (w ++ s) ≠ a.guess ∧
       ycheckFinal (yellowAfter y s) (w ++ s) = true) := by
  intro s
  induction s with
  | nil =>
    intro n w y
    rw [acceptB_nil]
    simp only [List.append_nil, yellowAfter_nil, List.length_nil, Nat.not_lt_zero,
      false_implies, implies_true, true_and]
    constructor
    · intro h
      simp only [Bool.and_eq_true] at h
      obtain ⟨hpos, hrest⟩ := h
      by_cases he : n.eow = true
      · rw [if_pos he] at hrest
        simp only [Bool.and_eq_true, decide_eq_true_eq] at hrest
        refine ⟨by rw [memNode]; exact he, ?_, hpos, hrest.1, hrest.2⟩
        intro p hp hne
        exact absurd (List.prefix_nil.mp hp) hne
      · rw [if_neg he] at hrest
        exact absurd hrest (by simp)
    · rintro ⟨hm, _, hpos, hg, hy⟩
      rw [memNode] at hm
      rw [hpos, if_pos hm, Bool.true_and, hy]
      simp [hg]
  | cons c s2 ih =>
    intro n w y
    rw [acceptB_cons]
    cases hlk : alookup n.children c with
    | none =>
      simp only [hlk]
      constructor
      · intro h
        simp only [Bool.and_eq_true] at h
        rcases h with ⟨_, h2⟩
        split at h2
        · exact absurd h2 (by simp)
        · simp only [Bool.and_eq_true] at h2
          exact absurd h2.2 (by simp)
      · rintro ⟨hm, _⟩
        rw [memNode_cons, hlk] at hm
        exact absurd hm (by simp)
    | some sub =>
      simp only [hlk]
      constructor
      · intro h
        simp only [Bool.and_eq_true] at h
        obtain ⟨hpos, h2⟩ := h
        by_cases he : n.eow = true
        · rw [if_pos he] at h2
          exact absurd h2 (by simp)
        · rw [if_neg he] at h2
          simp only [Bool.and_eq_true, Bool.not_eq_true'] at h2
          obtain ⟨hskip, hacc⟩ := h2
          rw [ih sub (w ++ [c]) (ydec y c)] at hacc
          obtain ⟨hm2, hpre2, hpos2, hposj2, hskipj2, hg2, hy2⟩ := hacc
          simp only [Bool.not_eq_true] at he
          refine ⟨?_, ?_, hpos, ?_, ?_, ?_, ?_⟩
          · rw [memNode_cons, hlk]; exact hm2
          · intro p hp hne
            rcases isPrefix_cons_iff.mp hp with rfl | ⟨p2, rfl, hp2⟩
            · rw [memNode]; exact he
            · rw [memNode_cons, hlk]
              exact hpre2 p2 hp2 (fun hcon => hne (by rw [hcon]))
          · intro j hj
            cases j with
            | zero =>
              simpa using hpos2
            | succ j2 =>
              rw [List.take_succ_cons]
              have := hposj2 j2 (by simpa using hj)
              simpa [List.append_assoc] using this
          · intro j hj
            cases j with
            | zero =>
              simpa [yellowAfter_nil] using hskip
            | succ j2 =>
              rw [List.take_succ_cons, List.getD_cons_succ, yellowAfter_cons]
              exact hskipj2 j2 (by simpa using hj)
          · intro hcon
            apply hg2
            rw [← hcon]
            simp
          · rw [yellowAfter_cons]
            have : (w ++ [c]) ++ s2 = w ++ c :: s2 := by simp
            rw [← this]
            exact hy2
      · rintro ⟨hm, hpre, hpos, hposj, hskipj, hg, hy⟩
        have he : n.eow = false := by
          have := hpre [] ⟨c :: s2, rfl⟩ (by simp)
          rw [memNode] at this
          exact this
        rw [hpos, Bool.true_and, if_neg (by rw [he]; simp)]
        have hskip0 : skipChar a y c = false := by
          have := hskipj 0 (by simp)
          simpa [yellowAfter_nil] using this
        rw [hskip0]
        simp only [Bool.not_false, Bool.true_and]
        rw [ih sub (w ++ [c]) (ydec y c)]
        refine ⟨?_, ?_, ?_, ?_, ?_, ?_, ?_⟩
        · rw [memNode_cons, hlk] at hm; exact hm
        · intro p2 hp2 hne2
          have := hpre (c :: p2) (isPrefix_cons_iff.mpr (Or.inr ⟨p2, rfl, hp2⟩))
            (fun hcon => hne2 (List.cons_eq_cons.mp hcon).2)
          rw [memNode_cons, hlk] at this
          exact this
        · have := hposj 0 (by simp)
          simpa using this
        · intro j hj
          have := hposj (j + 1) (by simpa using hj)
          rw [List.take_succ_cons] at this
          simpa [List.append_assoc] using this
        · intro j hj
          have := hskipj (j + 1) (by simpa using hj)
          rw [List.take_succ_cons, List.getD_cons_succ, yellowAfter_cons] at this
          exact this
        · intro hcon
          apply hg
          rw [← hcon]
          simp
        · rw [yellowAfter_cons] at hy
          have : (w ++ [c]) ++ s2 = w ++ c :: s2 := by simp
          rw [this]
          exact hy

theorem countc_cons (c d : Char) (u : List Char) :
    countc c (d :: u) = (if d = c then 1 else 0) + countc c u := rfl

theorem ydec_keys (y : List (Char × Nat)) (c : Char) :
    (ydec y c).map Prod.fst = y.map Prod.fst := by
  rw [ydec]
  split
  · rw [List.map_map]
    apply List.map_congr_left
    intro p _
    by_cases hp : p.1 = c <;> simp [hp]
  · rfl

theorem yellowAfter_eq_map (u : List Char) : ∀ (y : List (Char × Nat)),
    (y.map Prod.fst).Nodup →
    yellowAfter y u = y.map (fun p => (p.1, p.2 - countc p.1 u)) := by
  induction u with
  | nil =>
    intro y _
    rw [yellowAfter_nil]
    have h0 : ∀ p ∈ y, (p.1, p.2 - countc p.1 []) = p := by
      intro p _
      simp [countc]
    rw [List.map_congr_left h0]
    simp
  | cons c u2 ih =>
    intro y hnd
    rw [yellowAfter_cons, ih (ydec y c) (by rw [ydec_keys]; exact hnd)]
    rw [ydec]
    split
    · next hpos =>
      rw [List.map_map]
      apply List.map_congr_left
      intro p _
      rw [Function.comp_apply]
      by_cases hp : p.1 = c
      · rw [if_pos hp]
        show ((p.1 : Char), p.2 - 1 - countc p.1 u2) = (p.1, p.2 - countc p.1 (c :: u2))
        rw [hp, countc_cons, if_pos rfl]
        congr 1
        omega
      · rw [if_neg hp]
        show ((p.1 : Char), p.2 - countc p.1 u2) = (p.1, p.2 - countc p.1 (c :: u2))
        rw [countc_cons, if_neg (fun he : c = p.1 => hp he.symm)]
        congr 1
        omega
    · next hz =>
      simp only [Nat.not_lt, Nat.le_zero] at hz
      apply List.map_congr_left
      intro p hp
      by_cases hpc : p.1 = c
      · have hlk : alookup y c = some p.2 := by
          rw [← hpc]
          exact alookup_of_mem_nodup hnd hp
        have hv : p.2 = 0 := by
          rw [yget, hlk] at hz
          simpa using hz
        rw [hv]
        simp
      · rw [countc_cons, if_neg (fun he : c = p.1 => hpc he.symm)]
        congr 1
        omega

theorem alookup_map_pair {α β γ : Type} [DecidableEq α] (l : List (α × β)) (f : α → β → γ)
    (a : α) :
    alookup (l.map (fun p => (p.1, f p.1 p.2))) a = (alookup l a).map (f a) := by
  induction l with
  | nil => simp [alookup]
  | cons p rest ih =>
    by_cases hp : p.1 = a
    · simp [alookup, hp]
    · simp [alookup, hp, ih]

theorem yget_yellowAfter (y : List (Char × Nat)) (u : List Char) (c : Char)
    (hnd : (y.map Prod.fst).Nodup) :
    yget (yellowAfter y u) c = yget y c - countc c u := by
  rw [yellowAfter_eq_map u y hnd, yget, yget,
    alookup_map_pair y (fun a b => b - countc a u) c]
  cases alookup y c <;> simp

theorem ycheck_final_iff (y : List (Char × Nat)) (u : List Char)
    (hnd : (y.map Prod.fst).Nodup) :
    ycheckFinal (yellowAfter y u) u = true ↔ ∀ p ∈ y, p.2 ≤ 2 * countc p.1 u := by
  rw [yellowAfter_eq_map u y hnd, ycheckFinal, List.all_map, List.all_eq_true]
  constructor
  · intro h p hp
    have := h p hp
    simp only [Function.comp_apply, Bool.not_eq_true', Bool.and_eq_false_iff,
      decide_eq_false_iff_not, Nat.not_lt] at this
    rcases this with h1 | h1 <;> omega
  · intro h p hp
    have := h p hp
    simp only [Function.comp_apply, Bool.not_eq_true', Bool.and_eq_false_iff,
      decide_eq_false_iff_not, Nat.not_lt]
    by_cases hz : p.2 - countc p.1 u = 0
    · exact Or.inl (by omega)
    · exact Or.inr (by omega)

theorem skipChar_eq_false_iff (a : FilterArgs) (y : List (Char × Nat)) (c : Char) :
    skipChar a y c = false ↔
      (c ∈ a.gray → c ∉ a.green_pos.map Prod.snd → yget y c ≠ 0) := by
  rw [skipChar]
  by_cases h1 : c ∈ a.gray <;> by_cases h3 : c ∈ a.green_pos.map Prod.snd <;>
    by_cases h2 : yget y c = 0 <;> simp [h1, h2, h3]

theorem exists_index_of_count_gt (c : Char) : ∀ (u : List Char) (k : Nat),
    k < countc c u →
    ∃ j, j < u.length ∧ u.getD j ' ' = c ∧ countc c (u.take j) = k := by
  intro u
  induction u with
  | nil => intro k h; simp [countc] at h
  | cons d rest ih =>
    intro k h
    by_cases hd : d = c
    · cases k with
      | zero =>
        exact ⟨0, by simp, by simp [hd], by simp [countc]⟩
      | succ k2 =>
        rw [countc_cons, if_pos hd] at h
        obtain ⟨j, hj, hc, hcnt⟩ := ih k2 (by omega)
        refine ⟨j + 1, by simpa using hj, by simpa using hc, ?_⟩
        rw [List.take_succ_cons, countc_cons, if_pos hd, hcnt]
        omega
    · rw [countc_cons, if_neg hd] at h
      obtain ⟨j, hj, hc, hcnt⟩ := ih k (by omega)
      refine ⟨j + 1, by simpa using hj, by simpa using hc, ?_⟩
      rw [List.take_succ_cons, countc_cons, if_neg hd, hcnt]
      omega

theorem countc_take_lt (c : Char) (u : List Char) (j : Nat) (hj : j < u.length)
    (hc : u.getD j ' ' = c) : countc c (u.take j) < countc c u := by
  conv_rhs => rw [← List.take_append_drop j u]
  rw [countc_append]
  have hd : 0 < countc c (u.drop j) := by
    rw [List.drop_eq_getElem_cons hj, countc_cons]
    have : u[j] = c := by rw [← hc, List.getD_eq_getElem u ' ' hj]
    rw [if_pos this]
    omega
  omega

theorem skip_free_iff_cap (a : FilterArgs) (y : List (Char × Nat))
    (hnd : (y.map Prod.fst).Nodup) (u : List Char) :
    (∀ j, j < u.length → skipChar a (yellowAfter y (u.take j)) (u.getD j ' ') = false) ↔
    (∀ c, c ∈ a.gray → c ∉ a.green_pos.map Prod.snd → countc c u ≤ yget y c) := by
  constructor
  · intro h c hg hng
    by_contra hcon
    push_neg at hcon
    obtain ⟨j, hj, hcj, hcnt⟩ := exists_index_of_count_gt c u (yget y c) hcon
    have hs := h j hj
    rw [skipChar_eq_false_iff] at hs
    rw [hcj] at hs
    apply hs hg hng
    rw [yget_yellowAfter y _ c hnd, hcnt]
    omega
  · intro h j hj
    rw [skipChar_eq_false_iff]
    intro hg hng
    have hlt : countc (u.getD j ' ') (u.take j) < countc (u.getD j ' ') u :=
      countc_take_lt _ u j hj rfl
    have hcap := h _ hg hng
    rw [yget_yellowAfter y _ _ hnd]
    omega

theorem getD_take (l : List Char) (j i : Nat) (h : i < j) :
    (l.take j).getD i ' ' = l.getD i ' ' := by
  rcases Nat.lt_or_ge i l.length with hi | hi
  · rw [List.getD_eq_getElem l ' ' hi,
      List.getD_eq_getElem _ ' ' (by rw [List.length_take]; omega)]
    exact List.getElem_take l
  · rw [List.getD_eq_default _ _ (by rw [List.length_take]; omega),
      List.getD_eq_default _ _ hi]

theorem posCheck_true_iff (a : FilterArgs) (v : List Char) (hv : ¬(v.length = 0)) :
    posCheck a v = true ↔
      ((∀ g, alookup a.green_pos (v.length - 1) = some g → v.getD (v.length - 1) ' ' = g) ∧
       (∀ g, alookup a.gray_pos (v.length - 1) = some g → v.getD (v.length - 1) ' ' ≠ g)) := by
  rw [posCheck, if_neg hv]
  cases h1 : alookup a.green_pos (v.length - 1) <;>
    cases h2 : alookup a.gray_pos (v.length - 1) <;> simp [h1, h2]

theorem posCheck_take_at (a : FilterArgs) (u : List Char) (j : Nat) (hj : j < u.length) :
    posCheck a (u.take (j + 1)) = true ↔
      ((∀ g, alookup a.green_pos j = some g → u.getD j ' ' = g) ∧
       (∀ g, alookup a.gray_pos j = some g → u.getD j ' ' ≠ g)) := by
  have hlen : (u.take (j + 1)).length = j + 1 := by rw [List.length_take]; omega
  rw [posCheck_true_iff a _ (by rw [hlen]; omega)]
  rw [hlen]
  simp only [Nat.add_sub_cancel]
  rw [getD_take u (j + 1) j (by omega)]

/-- The full characterization of the word list produced by
`Trie.filter_words`, for a well-formed source trie and duplicate-free
yellow keys (both automatic for the Python dicts). -/
theorem filter_words_list_iff (t : Trie) (a : FilterArgs) (hwf : nodeWF t.root = true)
    (hnd : (a.yellow.map Prod.fst).Nodup) (u : List Char) :
    u ∈ (t.filter_words a).list ↔ filterCond a t u := by
  have h1 : u ∈ (t.filter_words a).list ↔ acceptB a u t.root [] a.yellow = true := by
    show u ∈ (dfs a t.root [] a.yellow).2.2 ↔ _
    rw [dfs_words_iff a t.root hwf [] a.yellow u]
    constructor
    · rintro ⟨s, he, hacc⟩
      rw [List.nil_append] at he
      rw [he]
      exact hacc
    · intro h
      exact ⟨u, by simp, h⟩
  rw [h1, acceptB_iff_path]
  unfold filterCond
  constructor
  · rintro ⟨hm, hpre, _, hposj, hskipj, hg, hy⟩
    refine ⟨hm, hpre, ?_, ?_, ?_, ?_, ?_⟩
    · intro i hi g hlk
      have := (posCheck_take_at a u i hi).mp (by simpa using hposj i hi)
      exact this.1 g hlk
    · intro i hi g hlk
      have := (posCheck_take_at a u i hi).mp (by simpa using hposj i hi)
      exact this.2 g hlk
    · exact (ycheck_final_iff a.yellow u hnd).mp (by simpa using hy)
    · exact (skip_free_iff_cap a a.yellow hnd u).mp hskipj
    · simpa using hg
  · rintro ⟨hm, hpre, hgreen, hgray, hyellow, hcap, hg⟩
    refine ⟨hm, hpre, by rw [posCheck]; simp, ?_, ?_, by simpa using hg, ?_⟩
    · intro j hj
      rw [List.nil_append]
      exact (posCheck_take_at a u j hj).mpr ⟨hgreen j hj, hgray j hj⟩
    · exact (skip_free_iff_cap a a.yellow hnd u).mpr hcap
    · rw [List.nil_append]
      exact (ycheck_final_iff a.yellow u hnd).mpr hyellow

/-- C1 counterexample: the claimed word set of `filter_words` is wrong on a
concrete input.  With yellow counts requiring two occurrences of the letter a,
the word abcde (which contains a single a) survives the filter, because the
dfs decrements the yellow count along the path before comparing it with the
occurrence count; the specification-claimed set requires at least two
occurrences and therefore excludes the word. -/
theorem claim_C1_counterexample :
    ['a','b','c','d','e'] ∈
      ((Trie.ofList [['a','b','c','d','e']]).filter_words
        ⟨[], [], [('a', 2)], [], []⟩).list ∧
    filterSpecClaim ⟨[], [], [('a', 2)], [], []⟩ (Trie.ofList [['a','b','c','d','e']])
      ['a','b','c','d','e'] = false := by
  constructor
  · decide
  · decide

/-- C1 (amended): for a well-formed source trie and duplicate-free yellow keys
(automatic for Python dicts), the word list returned by
`Trie.filter_words(gray, gray_pos, yellow, green_pos, guess)` consists exactly
of the stored words u such that: no proper prefix of u is itself a stored
word; u matches every green position and avoids every gray-position letter;
for every yellow entry (c, k), u contains at least k - count occurrences in
the sense 2 * count(c, u) ≥ k; every gray letter that is not a green value
occurs in u at most its yellow count (in particular not at all when it has no
positive yellow count); and u is not the excluded guess. -/
theorem claim_C1_filter_words_characterization (t : Trie) (a : FilterArgs)
    (hwf : nodeWF t.root = true) (hnd : (a.yellow.map Prod.fst).Nodup) (u : List Char) :
    u ∈ (t.filter_words a).list ↔ filterCond a t u :=
  filter_words_list_iff t a hwf hnd u

/-- Witness for the amended C1 at a concrete trie and constraint set. -/
theorem claim_C1_filter_words_characterization_witness :
    nodeWF (Trie.ofList [['c','r','a','n','e']]).root = true ∧
    ((([(('a' : Char), 1)] : List (Char × Nat))).map Prod.fst).Nodup ∧
    (['c','r','a','n','e'] ∈ ((Trie.ofList [['c','r','a','n','e']]).filter_words
        ⟨['z'], [], [('a', 1)], [], []⟩).list ↔
      filterCond ⟨['z'], [], [('a', 1)], [], []⟩ (Trie.ofList [['c','r','a','n','e']])
        ['c','r','a','n','e']) :=
  ⟨by decide, by decide,
    claim_C1_filter_words_characterization (Trie.ofList [['c','r','a','n','e']])
      ⟨['z'], [], [('a', 1)], [], []⟩ (by decide) (by decide) ['c','r','a','n','e']⟩

/-- C5: filtering is monotone (the filtered word list is no longer than the
source trie's stored word enumeration) and idempotent (filtering the result
again with the same constraint set yields the same word set). -/
theorem claim_C5_filter_monotone_idempotent (t : Trie) (a : FilterArgs)
    (hwf : nodeWF t.root = true) :
    (t.filter_words a).list.length ≤ t.root.wordList.length ∧
    (∀ u, u ∈ ((t.filter_words a).filter_words a).list ↔ u ∈ (t.filter_words a).list) := by
  constructor
  · have hs := dfs_words_sublist a t.root [] a.yellow
    have hmapid : t.root.wordList.map (([] : List Char) ++ ·) = t.root.wordList := by
      have : ∀ v ∈ t.root.wordList, ([] : List Char) ++ v = v := by
        intro v _
        exact List.nil_append v
      rw [List.map_congr_left this]
      simp
    rw [hmapid] at hs
    exact hs.length_le
  · intro u
    have hFwf : nodeWF (t.filter_words a).root = true := dfs_wf a t.root hwf [] a.yellow
    have h2 : u ∈ ((t.filter_words a).filter_words a).list ↔
        acceptB a u (t.filter_words a).root [] a.yellow = true := by
      show u ∈ (dfs a (t.filter_words a).root [] a.yellow).2.2 ↔ _
      rw [dfs_words_iff a _ hFwf [] a.yellow u]
      constructor
      · rintro ⟨s, he, hacc⟩
        rw [List.nil_append] at he
        rw [he]
        exact hacc
      · intro h
        exact ⟨u, by simp, h⟩
    have h3 : u ∈ (t.filter_words a).list ↔ acceptB a u t.root [] a.yellow = true := by
      show u ∈ (dfs a t.root [] a.yellow).2.2 ↔ _
      rw [dfs_words_iff a t.root hwf [] a.yellow u]
      constructor
      · rintro ⟨s, he, hacc⟩
        rw [List.nil_append] at he
        rw [he]
        exact hacc
      · intro h
        exact ⟨u, by simp, h⟩
    rw [h2, h3]
    have hst : acceptB a u (t.filter_words a).root [] a.yellow =
        acceptB a u t.root [] a.yellow :=
      dfs_acceptB_stable a t.root hwf [] a.yellow u
    rw [hst]

/-- Witness for C5 at a concrete trie and constraint set. -/
theorem claim_C5_filter_monotone_idempotent_witness :
    nodeWF (Trie.ofList [['c','r','a','n','e'], ['c','r','a','t','e']]).root = true ∧
    (((Trie.ofList [['c','r','a','n','e'], ['c','r','a','t','e']]).filter_words
        ⟨['t'], [], [], [], []⟩).list.length ≤
      (Trie.ofList [['c','r','a','n','e'], ['c','r','a','t','e']]).root.wordList.length ∧
     ∀ u, u ∈ (((Trie.ofList [['c','r','a','n','e'], ['c','r','a','t','e']]).filter_words
          ⟨['t'], [], [], [], []⟩).filter_words ⟨['t'], [], [], [], []⟩).list ↔
        u ∈ ((Trie.ofList [['c','r','a','n','e'], ['c','r','a','t','e']]).filter_words
          ⟨['t'], [], [], [], []⟩).list) :=
  ⟨by decide,
    claim_C5_filter_monotone_idempotent
      (Trie.ofList [['c','r','a','n','e'], ['c','r','a','t','e']])
      ⟨['t'], [], [], [], []⟩ (by decide)⟩

theorem update_frequencies_word_list (g : GuesserState) :
    (update_frequencies g).word_list = g.word_list := by
  rw [update_frequencies]
  split <;> rfl

theorem update_frequencies_pattern_cache (g : GuesserState) :
    (update_frequencies g).pattern_cache = g.pattern_cache := by
  rw [update_frequencies]
  split <;> rfl

theorem update_frequencies_tried (g : GuesserState) :
    (update_frequencies g).tried = g.tried := by
  rw [update_frequencies]
  split <;> rfl

/-- C7 counterexample: the Constraint Set attributes are not reset by
`restart_game`.  From a concrete reachable state (one guess made, feedback
with a yellow mark processed by `subset_trie`), the yellow counter is
non-empty and survives `restart_game` unchanged, contradicting the claim
that the constraint set is reset to empty. -/
theorem claim_C7_counterexample :
    (restart_game (subset_trie sampleState ['-','+','+','+','+'])).yellow ≠ [] := by
  decide

/-- C7 (amended): `restart_game` empties the guess history, resets the
tried-letter set to the opening word's letters, resets the candidate list to
the full dictionary, and drops the per-game trie; the pattern cache, opening
word, dictionary, full trie, letter frequencies, and the yellow/gray/green
constraint attributes (which are rebuilt from scratch by the next
`subset_trie` call) are all left unchanged. -/
theorem claim_C7_restart_game (g : GuesserState) :
    (restart_game g).tried = [] ∧
    (restart_game g).tried_letter = g.opening.dedup ∧
    (restart_game g).word_list = g.word_list_full ∧
    (restart_game g).word_trie = none ∧
    (restart_game g).pattern_cache = g.pattern_cache ∧
    (restart_game g).opening = g.opening ∧
    (restart_game g).word_list_full = g.word_list_full ∧
    (restart_game g).word_trie_full = g.word_trie_full ∧
    (restart_game g).letter_frequency_abs = g.letter_frequency_abs ∧
    (restart_game g).letter_frequency_pos = g.letter_frequency_pos ∧
    (restart_game g).yellow = g.yellow ∧
    (restart_game g).gray = g.gray ∧
    (restart_game g).green_pos = g.green_pos ∧
    (restart_game g).gray_pos = g.gray_pos :=
  ⟨rfl, rfl, rfl, rfl, rfl, rfl, rfl, rfl, rfl, rfl, rfl, rfl, rfl, rfl⟩

/-- C4: when exactly one candidate word remains, `_get_guess` returns that
word immediately; entropy scoring is bypassed (the instrumentation flag is
false and the pattern cache, which every entropy-scoring call consults and
fills, is untouched). -/
theorem claim_C4_single_candidate (g : GuesserState) (rand : RandOracle) (w : List Char)
    (h : g.word_list = [w]) :
    (get_guess_core g rand).1 = w ∧
    (get_guess_core g rand).2.2 = false ∧
    (get_guess_core g rand).2.1.pattern_cache = g.pattern_cache := by
  have hl : (update_frequencies g).word_list = [w] := by
    rw [update_frequencies_word_list, h]
  unfold get_guess_core
  simp [hl, update_frequencies_pattern_cache]

/-- Witness for C4 at a concrete one-candidate state. -/
theorem claim_C4_single_candidate_witness :
    (get_guess_core sampleState sampleRand).1 = ['c','r','a','n','e'] ∧
    (get_guess_core sampleState sampleRand).2.2 = false ∧
    (get_guess_core sampleState sampleRand).2.1.pattern_cache = sampleState.pattern_cache :=
  claim_C4_single_candidate sampleState sampleRand ['c','r','a','n','e'] (by decide)

theorem subset_trie_tried (g : GuesserState) (result : List Char) :
    (subset_trie g result).tried = g.tried := by
  rw [subset_trie]
  split
  · rfl
  · split <;> rfl

theorem frequency_guess_tried (g : GuesserState) :
    (frequency_guess_non_word g).2.1.tried = g.tried := by
  rw [frequency_guess_non_word]
  split <;> rfl

theorem get_guess_core_tried (g : GuesserState) (rand : RandOracle) :
    (get_guess_core g rand).2.1.tried = g.tried := by
  unfold get_guess_core
  dsimp only
  repeat' split
  all_goals first
    | exact update_frequencies_tried g
    | (rw [frequency_guess_tried]; exact update_frequencies_tried g)

theorem avoidLoop_some_valid {tried : List (List Char)} {pool : List Char} :
    ∀ {stream : List (List Char)} {guess w : List Char},
    avoidLoop tried pool stream guess = some w → w ∉ tried ∧ w.length = 5 := by
  intro stream
  induction stream with
  | nil =>
    intro guess w h
    rw [avoidLoop] at h
    split at h
    · next hc =>
      cases h
      exact hc
    · simp at h
  | cons d rest ih =>
    intro guess w h
    rw [avoidLoop] at h
    split at h
    · next hc =>
      cases h
      exact hc
    · split at h
      · simp at h
      · exact ih h

theorem avoidLoop_some_of_stream {tried : List (List Char)} {pool : List Char}
    (hpool : ¬(pool = [])) :
    ∀ (stream : List (List Char)) (guess : List Char),
    (∃ d ∈ stream, d ∉ tried ∧ d.length = 5) →
    ∃ w, avoidLoop tried pool stream guess = some w := by
  intro stream
  induction stream with
  | nil =>
    rintro guess ⟨d, hd, _⟩
    simp at hd
  | cons d rest ih =>
    rintro guess ⟨d2, hd2, hval⟩
    rw [avoidLoop]
    by_cases hg : guess ∉ tried ∧ guess.length = 5
    · exact ⟨guess, by rw [if_pos hg]⟩
    · rw [if_neg hg, if_neg hpool]
      rcases List.mem_cons.mp hd2 with heq | hmem
      · subst heq
        refine ⟨d2, ?_⟩
        rw [avoidLoop.eq_def]
        dsimp only
        rw [if_pos hval]
      · exact ih d ⟨d2, hmem, hval⟩

/-- C8 counterexample: a call of `get_guess` that crashes.  From the
dictionary consisting of the single five-letter word aaaaa, the opening word
computed at construction is the one-letter word a (no five-distinct-letter
combination exists, so the top-5-letters fallback produces a word as long as
the alphabet of the dictionary).  On the first call the anti-crash loop is
entered with an empty guess history: `np.random.choice` is applied to an
empty letter pool and raises, so no word is returned (modelled by `none`) —
contradicting the claim that every call terminates, returns a five-letter
word, and never raises. -/
theorem claim_C8_counterexample :
    get_guess (mkGuesser [['a','a','a','a','a']]) [] sampleRand
      [['s','t','a','r','e']] = none := by
  rfl

/-- C8 (amended): the anti-crash loop guarantees a fresh five-letter word
only when the letter pool of previously tried guesses is non-empty and the
random stream eventually supplies a five-letter draw that was not already
tried; under those conditions `get_guess` terminates with a word of length 5
that is not in the guess history, and appends it to the history.  (With an
empty history and an invalid proposed guess the loop crashes — see the
counterexample — and an adversarial random stream can starve it forever.) -/
theorem claim_C8_get_guess (g0 : GuesserState) (result : List Char) (rand : RandOracle)
    (stream : List (List Char)) (hpool : ¬(g0.tried.flatten = []))
    (hstream : ∃ d ∈ stream, d ∉ g0.tried ∧ d.length = 5) :
    ∃ w g1, get_guess g0 result rand stream = some (w, g1) ∧
      w.length = 5 ∧ w ∉ g0.tried ∧ g1.tried = g0.tried ++ [w] := by
  have htr2 : (get_guess_pre g0 result rand).2.1.tried = g0.tried := by
    unfold get_guess_pre
    dsimp only
    split
    · split
      · exact subset_trie_tried g0 result
      · rw [get_guess_core_tried]
        exact subset_trie_tried g0 result
    · split
      · rfl
      · rw [get_guess_core_tried]
  unfold get_guess
  dsimp only
  rw [← htr2] at hpool hstream
  obtain ⟨w, hw⟩ := @avoidLoop_some_of_stream (get_guess_pre g0 result rand).2.1.tried
    ((get_guess_pre g0 result rand).2.1.tried.flatten)
    (by simpa using hpool) stream (get_guess_pre g0 result rand).1 hstream
  have hval := avoidLoop_some_valid hw
  rw [hw]
  refine ⟨w, _, rfl, hval.2, htr2 ▸ hval.1, ?_⟩
  show (get_guess_pre g0 result rand).2.1.tried ++ [w] = g0.tried ++ [w]
  rw [htr2]

theorem take_set_of_le {α : Type} : ∀ (l : List α) (n : Nat) (x : α) (B : Nat), B ≤ n →
    (l.set n x).take B = l.take B := by
  intro l
  induction l with
  | nil => intro n x B h; simp
  | cons q rest ih =>
    intro n x B h
    cases n with
    | zero =>
      have hB : B = 0 := Nat.le_zero.mp h
      subst hB
      simp
    | succ n2 =>
      cases B with
      | zero => simp
      | succ B2 =>
        rw [List.set_cons_succ, List.take_succ_cons, List.take_succ_cons,
          ih n2 x B2 (by omega)]

theorem getD_take_of_lt {α : Type} (l : List α) (d : α) (j i : Nat) (h : i < j) :
    (l.take j).getD i d = l.getD i d := by
  rcases Nat.lt_or_ge i l.length with hi | hi
  · rw [List.getD_eq_getElem l d hi,
      List.getD_eq_getElem _ d (by rw [List.length_take]; omega)]
    exact List.getElem_take l
  · rw [List.getD_eq_default _ _ (by rw [List.length_take]; omega),
      List.getD_eq_default _ _ hi]

theorem getD_eq_of_take_eq {α : Type} {σ σ2 : List α} {B : Nat} (h : σ2.take B = σ.take B)
    (i : Nat) (hi : i < B) (d : α) : σ2.getD i d = σ.getD i d := by
  rw [← getD_take_of_lt σ2 d B i hi, ← getD_take_of_lt σ d B i hi, h]

theorem dfsH_preserves (a : FilterArgs) : ∀ (fuel cur : Nat) (w : List Char)
    (y : List (Char × Nat)) (newAddr B : Nat) (σ : List NodeH),
    B ≤ newAddr → B ≤ σ.length →
    (dfsH a fuel cur w y newAddr σ).2.1.take B = σ.take B ∧
    σ.length ≤ (dfsH a fuel cur w y newAddr σ).2.1.length := by
  intro fuel
  induction fuel with
  | zero =>
    intro cur w y newAddr B σ h1 h2
    rw [dfsH]
    exact ⟨rfl, le_rfl⟩
  | succ f ih =>
    intro cur w y newAddr B σ h1 h2
    rw [dfsH]
    dsimp only
    by_cases hpos : posCheck a w = true
    · rw [if_pos hpos]
      by_cases he : (σ.getD cur emptyNodeH).eow = true
      · rw [if_pos he]
        by_cases hck : (decide (w ≠ a.guess) && ycheckFinal y w) = true
        · rw [if_pos hck]
          refine ⟨take_set_of_le σ newAddr _ B h1, ?_⟩
          rw [List.length_set]
        · rw [if_neg hck]
          exact ⟨rfl, le_rfl⟩
      · rw [if_neg he]
        refine @List.foldlRecOn _ _
          (fun (st : Bool × List NodeH × List (List Char)) =>
            st.2.1.take B = σ.take B ∧ σ.length ≤ st.2.1.length)
          _ _ _ ⟨rfl, le_rfl⟩ ?_
        intro st hst p _
        dsimp only
        by_cases hskip : skipChar a y p.1 = true
        · rw [if_pos hskip]
          exact hst
        · rw [if_neg hskip]
          have hB1 : B ≤ st.2.1.length := le_trans h2 hst.2
          have hrec := ih p.2 (w ++ [p.1]) (ydec y p.1) st.2.1.length B
            (st.2.1 ++ [emptyNodeH]) hB1 (by rw [List.length_append]; omega)
          have htk : (dfsH a f p.2 (w ++ [p.1]) (ydec y p.1) st.2.1.length
              (st.2.1 ++ [emptyNodeH])).2.1.take B = σ.take B := by
            rw [hrec.1, List.take_append_of_le_length hB1, hst.1]
          have hln : st.2.1.length + 1 ≤
              (dfsH a f p.2 (w ++ [p.1]) (ydec y p.1) st.2.1.length
                (st.2.1 ++ [emptyNodeH])).2.1.length := by
            have := hrec.2
            rw [List.length_append] at this
            simpa using this
          by_cases hv : (dfsH a f p.2 (w ++ [p.1]) (ydec y p.1) st.2.1.length
              (st.2.1 ++ [emptyNodeH])).1 = true
          · rw [if_pos hv]
            refine ⟨?_, ?_⟩
            · rw [take_set_of_le _ newAddr _ B h1, htk]
            · rw [List.length_set]
              omega
          · rw [if_neg hv]
            refine ⟨htk, ?_⟩
            show σ.length ≤ (dfsH a f p.2 (w ++ [p.1]) (ydec y p.1) st.2.1.length
              (st.2.1 ++ [emptyNodeH])).2.1.length
            omega
    · rw [if_neg hpos]
      exact ⟨rfl, le_rfl⟩

theorem wordsH_congr (B : Nat) : ∀ (fuel : Nat) (σ σ2 : List NodeH) (addr : Nat),
    σ2.take B = σ.take B → closedBelow B fuel σ addr = true →
    wordsH fuel σ2 addr = wordsH fuel σ addr := by
  intro fuel
  induction fuel with
  | zero =>
    intro σ σ2 addr _ hcl
    rw [closedBelow] at hcl
    exact absurd hcl (by simp)
  | succ f ih =>
    intro σ σ2 addr htk hcl
    rw [closedBelow] at hcl
    simp only [Bool.and_eq_true, decide_eq_true_eq, List.all_eq_true] at hcl
    obtain ⟨haddr, hchl⟩ := hcl
    have hnode : σ2.getD addr emptyNodeH = σ.getD addr emptyNodeH :=
      getD_eq_of_take_eq htk addr haddr emptyNodeH
    rw [wordsH, wordsH]
    rw [hnode]
    have hch : ∀ chl : List (Char × Nat),
        (∀ p ∈ chl, closedBelow B f σ p.2 = true) →
        chl.flatMap (fun p => (wordsH f σ2 p.2).map (p.1 :: ·)) =
        chl.flatMap (fun p => (wordsH f σ p.2).map (p.1 :: ·)) := by
      intro chl
      induction chl with
      | nil => intro _; rfl
      | cons q rest ihc =>
        intro hcl2
        rw [List.flatMap_cons, List.flatMap_cons,
          ih σ σ2 q.2 htk (hcl2 q (List.mem_cons_self _ _)),
          ihc (fun p hp => hcl2 p (List.mem_cons_of_mem _ hp))]
    rw [hch _ hchl]

/-- C9: `filter_words` never mutates the source trie and returns a fresh,
independent one.  In the heap model: every pre-existing store cell — in
particular every node of the source trie — is unchanged by the call (the
prefix of the store below the old length is preserved verbatim); the word
set read from the source root afterwards is exactly what it was before; and
the returned root is a freshly allocated address outside the source store. -/
theorem claim_C9_filter_words_frame (a : FilterArgs) (fuel rootAddr : Nat)
    (σ : List NodeH) (hclosed : closedBelow σ.length fuel σ rootAddr = true) :
    (filter_wordsH a fuel rootAddr σ).2.1.take σ.length = σ ∧
    wordsH fuel (filter_wordsH a fuel rootAddr σ).2.1 rootAddr = wordsH fuel σ rootAddr ∧
    (filter_wordsH a fuel rootAddr σ).1 = σ.length := by
  have hpres := dfsH_preserves a fuel rootAddr [] a.yellow σ.length σ.length
    (σ ++ [emptyNodeH]) le_rfl (by rw [List.length_append]; omega)
  have htk : (filter_wordsH a fuel rootAddr σ).2.1.take σ.length = σ := by
    show (dfsH a fuel rootAddr [] a.yellow σ.length (σ ++ [emptyNodeH])).2.1.take σ.length = σ
    rw [hpres.1, List.take_append_of_le_length le_rfl, List.take_length]
  refine ⟨htk, ?_, rfl⟩
  apply wordsH_congr σ.length fuel σ _ rootAddr _ hclosed
  rw [htk, List.take_length]

/-- Witness for C9 at the concrete sample store. -/
theorem claim_C9_filter_words_frame_witness :
    closedBelow sampleStore.length 3 sampleStore 1 = true ∧
    ((filter_wordsH emptyArgs 3 1 sampleStore).2.1.take sampleStore.length = sampleStore ∧
     wordsH 3 (filter_wordsH emptyArgs 3 1 sampleStore).2.1 1 = wordsH 3 sampleStore 1 ∧
     (filter_wordsH emptyArgs 3 1 sampleStore).1 = sampleStore.length) :=
  ⟨by decide, claim_C9_filter_words_frame emptyArgs 3 1 sampleStore (by decide)⟩

/-! ### C3 and C10: the entropy maximiser and the pattern-cache invariant -/

theorem collectCodes_eq (w1 : List Char) (targets : List (List Char))
    (inner0 : List (List Char × Nat)) :
    collectCodes w1 targets inner0 = targets.foldl (collectStep w1) ([], inner0) := rfl

theorem get_max_entropy_word_eq (cache : Cache) (sources targets : List (List Char)) :
    get_max_entropy_word cache sources targets =
      if targets.length = 0 then ((sources.headD [], (0 : EReal)), cache)
      else sources.foldl (gmewStep targets) ((([] : List Char), (⊥ : EReal)), cache) := rfl

theorem collectStep_hit {w1 w2 : List Char} {acc : List Nat × List (List Char × Nat)}
    {v : Nat} (hl : alookup acc.2 w2 = some v) :
    collectStep w1 acc w2 = (acc.1 ++ [v], acc.2) := by
  unfold collectStep
  rw [hl]

theorem collectStep_miss {w1 w2 : List Char} {acc : List Nat × List (List Char × Nat)}
    (hl : alookup acc.2 w2 = none) :
    collectStep w1 acc w2 =
      (acc.1 ++ [get_matches w1 w2], acc.2 ++ [(w2, get_matches w1 w2)]) := by
  unfold collectStep
  rw [hl]

theorem gmewStep_eq (targets : List (List Char)) (b : List Char) (e : EReal)
    (c : Cache) (s : List Char) :
    gmewStep targets ((b, e), c) s =
      if ((process_source c targets s).1 : EReal) > e
      then ((s, ((process_source c targets s).1 : EReal)), (process_source c targets s).2)
      else ((b, e), (process_source c targets s).2) := rfl

/-- A truthful inner cache returns the true feedback code on a hit. -/
theorem cacheInnerOK_lookup {w1 : List Char} {inner : List (List Char × Nat)}
    (h : cacheInnerOK w1 inner = true) {w2 : List Char} {v : Nat}
    (hl : alookup inner w2 = some v) : v = get_matches w1 w2 := by
  simp only [cacheInnerOK, List.all_eq_true, decide_eq_true_eq] at h
  exact h (w2, v) (alookup_eq_some_mem hl)

/-- Generalised correctness of the target loop: from a truthful inner cache,
the collected codes extend the accumulator by the true code of every target
and the inner cache stays truthful. -/
theorem collectCodes_go (w1 : List Char) (targets : List (List Char)) :
    ∀ (cs : List Nat) (inner : List (List Char × Nat)),
      cacheInnerOK w1 inner = true →
      (targets.foldl (collectStep w1) (cs, inner)).1
          = cs ++ targets.map (get_matches w1) ∧
      cacheInnerOK w1 (targets.foldl (collectStep w1) (cs, inner)).2 = true := by
  induction targets with
  | nil =>
    intro cs inner h
    exact ⟨by simp, h⟩
  | cons w2 rest ih =>
    intro cs inner h
    rw [List.foldl_cons]
    cases hl : alookup inner w2 with
    | some v =>
      have hv : v = get_matches w1 w2 := cacheInnerOK_lookup h hl
      rw [show collectStep w1 (cs, inner) w2 = (cs ++ [v], inner) from collectStep_hit hl]
      rcases ih (cs ++ [v]) inner h with ⟨h1, h2⟩
      refine ⟨?_, h2⟩
      rw [h1, hv]
      simp
    | none =>
      rw [show collectStep w1 (cs, inner) w2
            = (cs ++ [get_matches w1 w2], inner ++ [(w2, get_matches w1 w2)])
          from collectStep_miss hl]
      have hinner : cacheInnerOK w1 (inner ++ [(w2, get_matches w1 w2)]) = true := by
        have h' := h
        simp only [cacheInnerOK] at h' ⊢
        simp [List.all_append, h']
      rcases ih (cs ++ [get_matches w1 w2]) _ hinner with ⟨h1, h2⟩
      refine ⟨?_, h2⟩
      rw [h1]
      simp

/-- The target loop of one source: under the cache invariant the collected
code list is exactly the map of `get_matches` over the targets. -/
theorem collectCodes_spec (w1 : List Char) (targets : List (List Char))
    (inner0 : List (List Char × Nat)) (h : cacheInnerOK w1 inner0 = true) :
    (collectCodes w1 targets inner0).1 = targets.map (get_matches w1) ∧
    cacheInnerOK w1 (collectCodes w1 targets inner0).2 = true := by
  have hgo := collectCodes_go w1 targets [] inner0 h
  rw [collectCodes_eq]
  simpa using hgo

/-- Under the cache invariant, the inner dict read (or freshly created) for
any source is truthful. -/
theorem cacheOK_lookup {c : Cache} (h : cacheOK c = true) (w1 : List Char) :
    cacheInnerOK w1 ((alookup c w1).getD []) = true := by
  cases hl : alookup c w1 with
  | none => rfl
  | some inner =>
    have hm := alookup_eq_some_mem hl
    simp only [cacheOK, List.all_eq_true] at h
    simpa using h _ hm

/-- Writing a truthful inner dict preserves the cache invariant. -/
theorem cacheOK_aset {c : Cache} {w1 : List Char} {inner : List (List Char × Nat)}
    (hc : cacheOK c = true) (hi : cacheInnerOK w1 inner = true) :
    cacheOK (aset c w1 inner) = true := by
  simp only [cacheOK, List.all_eq_true] at hc ⊢
  intro q hq
  rcases mem_aset hq with h1 | h1
  · rw [h1]
    simpa using hi
  · exact hc _ h1

/-- Processing one source under the cache invariant yields exactly the pure
entropy of that source and preserves the invariant. -/
theorem process_source_spec {c : Cache} (targets : List (List Char)) (w1 : List Char)
    (hc : cacheOK c = true) :
    (process_source c targets w1).1 = entropyPure targets w1 ∧
    cacheOK (process_source c targets w1).2 = true := by
  have hinner := cacheOK_lookup hc w1
  rcases collectCodes_spec w1 targets _ hinner with ⟨h1, h2⟩
  constructor
  · show entropyOfCodes (collectCodes w1 targets ((alookup c w1).getD [])).1
        targets.length = entropyPure targets w1
    rw [h1]
    rfl
  · show cacheOK (aset c w1 (collectCodes w1 targets ((alookup c w1).getD [])).2) = true
    exact cacheOK_aset hc h2

/-- The source loop, started at a best-so-far word with its own entropy as
running maximum, ends at the first entropy maximiser of the extended list. -/
theorem gmew_fold (targets : List (List Char)) (l : List (List Char)) :
    ∀ (b : List Char) (c : Cache), cacheOK c = true →
      ∃ w c',
        l.foldl (gmewStep targets) ((b, ((entropyPure targets b : ℝ) : EReal)), c)
          = ((w, ((entropyPure targets w : ℝ) : EReal)), c') ∧
        cacheOK c' = true ∧
        (∃ pre post, b :: l = pre ++ w :: post ∧
          ∀ x ∈ pre, entropyPure targets x < entropyPure targets w) ∧
        (∀ x ∈ b :: l, entropyPure targets x ≤ entropyPure targets w) := by
  induction l with
  | nil =>
    intro b c hc
    refine ⟨b, c, rfl, hc, ⟨[], [], rfl, by simp⟩, ?_⟩
    intro x hx
    rw [List.mem_singleton.mp hx]
  | cons s rest ih =>
    intro b c hc
    rcases process_source_spec targets s hc with ⟨hr1, hr2⟩
    rw [List.foldl_cons, gmewStep_eq, hr1]
    by_cases hlt : entropyPure targets b < entropyPure targets s
    · rw [if_pos (show ((entropyPure targets s : ℝ) : EReal)
            > ((entropyPure targets b : ℝ) : EReal) from EReal.coe_lt_coe_iff.mpr hlt)]
      rcases ih s _ hr2 with ⟨w, c', hfold, hc', ⟨pre, post, hdec, hpre⟩, hall⟩
      have hsw : entropyPure targets s ≤ entropyPure targets w :=
        hall s (List.mem_cons_self s rest)
      refine ⟨w, c', hfold, hc', ⟨b :: pre, post, ?_, ?_⟩, ?_⟩
      · rw [List.cons_append, ← hdec]
      · intro x hx
        rcases List.mem_cons.mp hx with h1 | h1
        · rw [h1]
          exact lt_of_lt_of_le hlt hsw
        · exact hpre x h1
      · intro x hx
        rcases List.mem_cons.mp hx with h1 | h1
        · rw [h1]
          exact le_of_lt (lt_of_lt_of_le hlt hsw)
        · exact hall x h1
    · rw [if_neg (fun hcon => hlt (EReal.coe_lt_coe_iff.mp hcon))]
      have hsb : entropyPure targets s ≤ entropyPure targets b := not_lt.mp hlt
      rcases ih b _ hr2 with ⟨w, c', hfold, hc', ⟨pre, post, hdec, hpre⟩, hall⟩
      refine ⟨w, c', hfold, hc', ?_, ?_⟩
      · cases pre with
        | nil =>
          rcases List.cons_eq_cons.mp hdec with ⟨hw, hpost⟩
          refine ⟨[], s :: post, ?_, by simp⟩
          rw [← hw, ← hpost]
          rfl
        | cons p0 pre' =>
          rcases List.cons_eq_cons.mp hdec with ⟨hp0, hrest⟩
          have hbw : entropyPure targets b < entropyPure targets w := by
            have := hpre p0 (List.mem_cons_self p0 pre')
            rw [hp0]
            exact this
          refine ⟨b :: s :: pre', post, ?_, ?_⟩
          · rw [hrest]
            rfl
          · intro x hx
            rcases List.mem_cons.mp hx with h1 | h1
            · rw [h1]
              exact hbw
            · rcases List.mem_cons.mp h1 with h2 | h2
              · rw [h2]
                exact lt_of_le_of_lt hsb hbw
              · exact hpre x (List.mem_cons_of_mem p0 h2)
      · have hbww : entropyPure targets b ≤ entropyPure targets w :=
          hall b (List.mem_cons_self b rest)
        intro x hx
        rcases List.mem_cons.mp hx with h1 | h1
        · rw [h1]
          exact hbww
        · rcases List.mem_cons.mp h1 with h2 | h2
          · rw [h2]
            exact le_trans hsb hbww
          · exact hall x (List.mem_cons_of_mem b h2)

/-- The source loop preserves the cache invariant from any starting state. -/
theorem gmew_fold_cacheOK (targets : List (List Char)) (l : List (List Char)) :
    ∀ (p : List Char × EReal) (c : Cache), cacheOK c = true →
      cacheOK (l.foldl (gmewStep targets) (p, c)).2 = true := by
  induction l with
  | nil =>
    intro p c hc
    exact hc
  | cons s rest ih =>
    intro p c hc
    have h2 := (process_source_spec targets s hc).2
    cases p with
    | mk b e =>
      rw [List.foldl_cons, gmewStep_eq]
      by_cases hcond : ((process_source c targets s).1 : EReal) > e
      · rw [if_pos hcond]
        exact ih _ _ h2
      · rw [if_neg hcond]
        exact ih _ _ h2

/-- Two truthful caches drive the source loop to the same (word, entropy)
pair, from any common best-so-far state. -/
theorem gmew_fold_congr (targets : List (List Char)) (l : List (List Char)) :
    ∀ (p : List Char × EReal) (c c' : Cache), cacheOK c = true → cacheOK c' = true →
      (l.foldl (gmewStep targets) (p, c)).1 = (l.foldl (gmewStep targets) (p, c')).1 := by
  induction l with
  | nil =>
    intro p c c' _ _
    rfl
  | cons s rest ih =>
    intro p c c' hc hc'
    rcases process_source_spec targets s hc with ⟨h1, h2⟩
    rcases process_source_spec targets s hc' with ⟨h1', h2'⟩
    cases p with
    | mk b e =>
      rw [List.foldl_cons, List.foldl_cons, gmewStep_eq, gmewStep_eq, h1, h1']
      by_cases hcond : ((entropyPure targets s : ℝ) : EReal) > e
      · rw [if_pos hcond, if_pos hcond]
        exact ih _ _ _ h2 h2'
      · rw [if_neg hcond, if_neg hcond]
        exact ih _ _ _ h2 h2'

/-- C3: for non-empty sources and targets and a truthful pattern cache,
`get_max_entropy_word` returns the source of maximal Shannon entropy of the
feedback-code distribution over the targets — the first such source in list
order — together with that entropy value. -/
theorem claim_C3_max_entropy_first_argmax (cache : Cache)
    (sources targets : List (List Char)) (hs : ¬(sources = [])) (ht : ¬(targets = []))
    (hc : cacheOK cache = true) :
    ∃ w pre post, sources = pre ++ w :: post ∧
      (∀ x ∈ pre, entropyPure targets x < entropyPure targets w) ∧
      (∀ x ∈ sources, entropyPure targets x ≤ entropyPure targets w) ∧
      (get_max_entropy_word cache sources targets).1
        = (w, ((entropyPure targets w : ℝ) : EReal)) := by
  cases sources with
  | nil => exact absurd rfl hs
  | cons s0 rest =>
    have hlen : ¬ targets.length = 0 := by
      intro h0
      exact ht (List.length_eq_zero.mp h0)
    rcases process_source_spec targets s0 hc with ⟨h1, h2⟩
    rcases gmew_fold targets rest s0 _ h2 with
      ⟨w, c', hfold, _, ⟨pre, post, hdec, hpre⟩, hall⟩
    refine ⟨w, pre, post, hdec, hpre, hall, ?_⟩
    rw [get_max_entropy_word_eq, if_neg hlen, List.foldl_cons, gmewStep_eq, h1,
      if_pos (EReal.bot_lt_coe (entropyPure targets s0)), hfold]

/-- Witness for C3: a two-source instance where the second source has the
larger entropy over the targets. -/
theorem claim_C3_max_entropy_first_argmax_witness :
    (¬(([['a','a','a','a','a'], ['c','r','a','n','e']] : List (List Char)) = []) ∧
     ¬(([['c','r','a','n','e'], ['s','t','a','r','e']] : List (List Char)) = []) ∧
     cacheOK [] = true) ∧
    ∃ w pre post,
      ([['a','a','a','a','a'], ['c','r','a','n','e']] : List (List Char))
        = pre ++ w :: post ∧
      (∀ x ∈ pre, entropyPure [['c','r','a','n','e'], ['s','t','a','r','e']] x
        < entropyPure [['c','r','a','n','e'], ['s','t','a','r','e']] w) ∧
      (∀ x ∈ ([['a','a','a','a','a'], ['c','r','a','n','e']] : List (List Char)),
        entropyPure [['c','r','a','n','e'], ['s','t','a','r','e']] x
          ≤ entropyPure [['c','r','a','n','e'], ['s','t','a','r','e']] w) ∧
      (get_max_entropy_word [] [['a','a','a','a','a'], ['c','r','a','n','e']]
          [['c','r','a','n','e'], ['s','t','a','r','e']]).1
        = (w, ((entropyPure [['c','r','a','n','e'], ['s','t','a','r','e']] w : ℝ) : EReal)) :=
  ⟨⟨by decide, by decide, by decide⟩,
   claim_C3_max_entropy_first_argmax []
     [['a','a','a','a','a'], ['c','r','a','n','e']]
     [['c','r','a','n','e'], ['s','t','a','r','e']]
     (by decide) (by decide) (by decide)⟩

/-- C10: the pattern-cache invariant — every stored entry equals
`get_matches(w1, w2)` — holds of the initially empty cache, is preserved by
every call to `get_max_entropy_word`, and the (word, entropy) result does
not depend on which truthful entries the cache already holds. -/
theorem claim_C10_pattern_cache_invariant (c c' : Cache)
    (sources targets : List (List Char))
    (hc : cacheOK c = true) (hc' : cacheOK c' = true) :
    cacheOK ([] : Cache) = true ∧
    cacheOK (get_max_entropy_word c sources targets).2 = true ∧
    (get_max_entropy_word c sources targets).1
      = (get_max_entropy_word c' sources targets).1 := by
  refine ⟨rfl, ?_, ?_⟩
  · by_cases hlen : targets.length = 0
    · rw [get_max_entropy_word_eq, if_pos hlen]
      exact hc
    · rw [get_max_entropy_word_eq, if_neg hlen]
      exact gmew_fold_cacheOK targets sources ([], ⊥) c hc
  · by_cases hlen : targets.length = 0
    · rw [get_max_entropy_word_eq, get_max_entropy_word_eq, if_pos hlen, if_pos hlen]
    · rw [get_max_entropy_word_eq, get_max_entropy_word_eq, if_neg hlen, if_neg hlen]
      exact gmew_fold_congr targets sources ([], ⊥) c c' hc hc'

/-- Witness for C10: the empty cache against a one-entry truthful cache. -/
theorem claim_C10_pattern_cache_invariant_witness :
    (cacheOK [] = true ∧
     cacheOK [(['a','a','a','a','a'], [(['a','a','a','a','a'], 242)])] = true) ∧
    (cacheOK ([] : Cache) = true ∧
     cacheOK (get_max_entropy_word [] [['a','a','a','a','a']] [['a','a','a','a','a']]).2
       = true ∧
     (get_max_entropy_word [] [['a','a','a','a','a']] [['a','a','a','a','a']]).1
       = (get_max_entropy_word [(['a','a','a','a','a'], [(['a','a','a','a','a'], 242)])]
           [['a','a','a','a','a']] [['a','a','a','a','a']]).1) :=
  ⟨⟨by decide, by decide⟩,
   claim_C10_pattern_cache_invariant []
     [(['a','a','a','a','a'], [(['a','a','a','a','a'], 242)])]
     [['a','a','a','a','a']] [['a','a','a','a','a']] (by decide) (by decide)⟩

/-- Witness for C8 at a concrete mid-game state and a stream containing a
fresh five-letter draw. -/
theorem claim_C8_get_guess_witness :
    (¬(sampleState.tried.flatten = []) ∧
     ∃ d ∈ ([['q','u','e','r','y']] : List (List Char)),
       d ∉ sampleState.tried ∧ d.length = 5) ∧
    ∃ w g1, get_guess sampleState [] sampleRand [['q','u','e','r','y']] = some (w, g1) ∧
      w.length = 5 ∧ w ∉ sampleState.tried ∧ g1.tried = sampleState.tried ++ [w] :=
  ⟨⟨by decide, by decide⟩,
   claim_C8_get_guess sampleState [] sampleRand [['q','u','e','r','y']]
     (by decide) (by decide)⟩
